import Mathlib

/-!
# Roman numeral calculator: a verification development

A shallow embedding of `src/roman_calculator.c`.  A C string is modelled by the
list of its characters before the terminating NUL.  A `NULL` result, and any
execution that reads or writes outside a buffer, is modelled by `none`.
-/

namespace RomanCalculator

/-! ## Constants and the symbol table -/

/-- The constant `MAX_NUMERAL_LENGTH` of the source. -/
def MAX_NUMERAL_LENGTH : Nat := 5000

/-- The enumerators `RN_I .. RN_M, RN_LAST` of `enum Roman_Numeral`. -/
def RN_I : Nat := 0
/-- Enumerator `RN_V`. -/
def RN_V : Nat := 1
/-- Enumerator `RN_X`. -/
def RN_X : Nat := 2
/-- Enumerator `RN_L`. -/
def RN_L : Nat := 3
/-- Enumerator `RN_C`. -/
def RN_C : Nat := 4
/-- Enumerator `RN_D`. -/
def RN_D : Nat := 5
/-- Enumerator `RN_M`. -/
def RN_M : Nat := 6
/-- Enumerator `RN_LAST`, the number of symbols. -/
def RN_LAST : Nat := 7

/-- The table `Roman_Numeral_Char`. -/
def Roman_Numeral_Char : List Char := ['I', 'V', 'X', 'L', 'C', 'D', 'M']

/-- Entry `k` of `Roman_Numeral_Char`; the source never reads the table at an
index of `RN_LAST` or more, where this model answers NUL. -/
def Roman_Numeral_Char_at (k : Nat) : Char := Roman_Numeral_Char.getD k (Char.ofNat 0)

/-! ## The string library primitive -/

/-- Modelled from the spec: the body of `replace_substring` (declared in
`drmrd_string.h`, not part of the sources at hand).  The spec describes it as
the one primitive replace-all(haystack, pattern, replacement), which replaces
all non-overlapping occurrences of the pattern, found scanning from the left,
and never re-examines what it has written.  `skip` is the number of characters
of a match that are still to be passed over. -/
def replace_scan (pattern replacement : List Char) : Nat → List Char → List Char
  | _, [] => []
  | skip + 1, _ :: rest => replace_scan pattern replacement skip rest
  | 0, c :: rest =>
    if pattern.isPrefixOf (c :: rest) then
      replacement ++ replace_scan pattern replacement (pattern.length - 1) rest
    else
      c :: replace_scan pattern replacement 0 rest

/-- Modelled from the spec: `replace_substring(haystack, pattern, replacement)`
of `drmrd_string.h`, returning a new string in which every non-overlapping
occurrence of `pattern` is replaced.  An empty pattern occurs nowhere. -/
def replace_substring (haystack pattern replacement : List Char) : List Char :=
  if pattern = [] then haystack else replace_scan pattern replacement 0 haystack

/-- Modelled from the spec: `replace_substring_and_realloc` of `drmrd_string.h`,
the same replace-all that also releases its input buffer; the value returned is
that of `replace_substring`. -/
def replace_substring_and_realloc (haystack pattern replacement : List Char) : List Char :=
  replace_substring haystack pattern replacement

/-! ## `write_additively` -/

/-- The table `Subtractive_Form` of `write_additively`. -/
def Subtractive_Form : List (List Char) :=
  [ "IV".toList, "IX".toList, "IL".toList, "IC".toList, "ID".toList, "IM".toList,
    "VX".toList, "VL".toList, "VC".toList, "VD".toList, "VM".toList,
    "XL".toList, "XC".toList, "XD".toList, "XM".toList,
    "LC".toList, "LD".toList, "LM".toList,
    "CD".toList, "CM".toList,
    "DM".toList ]

/-- The table `Replacement_for_Subtractive` of `write_additively`. -/
def Replacement_for_Subtractive : List (List Char) :=
  [ "IIII".toList,
    "VIIII".toList, "XXXXVIIII".toList, "LXXXXVIIII".toList, "CCCCLXXXXVIIII".toList,
    "DCCCCLXXXXVIIII".toList,
    "V".toList, "XXXXV".toList, "LXXXXV".toList, "CCCCLXXXXV".toList, "DCCCCLXXXXV".toList,
    "XXXX".toList, "LXXXX".toList, "CCCCLXXXX".toList, "DCCCCLXXXX".toList,
    "L".toList, "CCCCL".toList, "DCCCCL".toList,
    "CCCC".toList, "DCCCC".toList,
    "D".toList ]

/-- The enumerator `SF_LAST`: the number of subtractive forms. -/
def SF_LAST : Nat := 21

/-- The loop `while (subtractive < SF_LAST)` of `write_additively`, run over the
two tables zipped from the current index on. -/
def write_additively_loop : List (List Char × List Char) → List Char → List Char
  | [], result => result
  | (form, replacement) :: rules, result =>
    write_additively_loop rules (replace_substring result form replacement)

/-- The function `write_additively(roman_numeral)`. -/
def write_additively (roman_numeral : List Char) : List Char :=
  write_additively_loop (Subtractive_Form.zip Replacement_for_Subtractive) roman_numeral

/-! ## `get_key` -/

/-- The loop of `get_key`:
`while ((symbol != Roman_Numeral_Char[result++]) && (result < RN_LAST));`.
Returns the value of `result` when the loop is left.  `fuel` bounds the number
of iterations. -/
def get_key_loop (symbol : Char) : Nat → Nat → Nat
  | 0, result => result
  | fuel + 1, result =>
    if symbol ≠ Roman_Numeral_Char_at result ∧ result + 1 < RN_LAST then
      get_key_loop symbol fuel (result + 1)
    else
      result + 1

/-- The function `get_key(symbol)`: the loop started at `RN_I`, then
`return --result`. -/
def get_key (symbol : Char) : Nat :=
  get_key_loop symbol RN_LAST RN_I - 1

/-! ## `add_additive_roman_numerals` -/

/-- The statement `symbol_counts[k]++`.  The array `int symbol_counts[RN_LAST]`
is a map from indices to counts; `get_key` only yields indices below `RN_LAST`
(`get_key_lt`), and the counts stay below the `cat_length` of the one caller,
at most `MAX_NUMERAL_LENGTH`, so they are natural numbers here. -/
def increment (symbol_counts : Nat → Nat) (k : Nat) : Nat → Nat :=
  fun j => if j = k then symbol_counts j + 1 else symbol_counts j

/-- The loop `do { symbol_counts[get_key(*p++)]++; } while (*p != 0);` entered
with `*p = c` and `rest` the characters after it. -/
def count_loop (symbol_counts : Nat → Nat) (c : Char) : List Char → Nat → Nat
  | [] => increment symbol_counts (get_key c)
  | d :: rest => count_loop (increment symbol_counts (get_key c)) d rest

/-- A counting loop over a whole C string.  On the empty string the `do` body
runs on the terminator and the test then reads past the end of the buffer, so
there is no defined result. -/
def count_symbols (symbol_counts : Nat → Nat) : List Char → Option (Nat → Nat)
  | [] => none
  | c :: rest => some (count_loop symbol_counts c rest)

/-- The loop `while (symbol-- > RN_I) { memset(...); offset += ...; }`: the
characters written to `result`, in the order of their offsets. -/
def emit_loop (symbol_counts : Nat → Nat) : Nat → List Char → List Char
  | 0, written => written
  | symbol + 1, written =>
    emit_loop symbol_counts symbol
      (written ++ List.replicate (symbol_counts symbol) (Roman_Numeral_Char_at symbol))

/-- The function `add_additive_roman_numerals(augend, addend, cat_length)`.
The buffer `result` holds `cat_length + 1` zeroed characters, so the string
returned is what the `memset` calls wrote, provided it leaves a terminator in
place; otherwise the writes or the later reads leave the buffer. -/
def add_additive_roman_numerals (augend addend : List Char) (cat_length : Nat) :
    Option (List Char) :=
  match count_symbols (fun _ => 0) augend with
  | none => none
  | some counts_augend =>
    match count_symbols counts_augend addend with
    | none => none
    | some symbol_counts =>
      let written := emit_loop symbol_counts RN_LAST []
      if written.length ≤ cat_length then some written else none

/-! ## `bundle_roman_symbols` -/

/-- The table `bundles` of `bundle_roman_symbols`. -/
def bundles : List (List Char) :=
  [ "IIIIIIIIII".toList, "IIIII".toList, "VV".toList, "XXXXXXXXXX".toList, "XXXXX".toList,
    "LL".toList, "CCCCCCCCCC".toList, "CCCCC".toList, "DD".toList ]

/-- The table `replacements` of `bundle_roman_symbols`. -/
def replacements : List (List Char) :=
  [ "X".toList, "V".toList, "X".toList, "C".toList, "L".toList, "C".toList,
    "M".toList, "D".toList, "M".toList ]

/-- The `for` loop of `bundle_roman_symbols`, over the two tables zipped. -/
def bundle_loop : List (List Char × List Char) → List Char → List Char
  | [], numeral => numeral
  | (bundle, replacement) :: rules, numeral =>
    bundle_loop rules (replace_substring_and_realloc numeral bundle replacement)

/-- The function `bundle_roman_symbols(numeral)`. -/
def bundle_roman_symbols (numeral : List Char) : List Char :=
  bundle_loop (bundles.zip replacements) numeral

/-! ## The public functions -/

/-- The function `add_roman_numerals(augend, addend)`; `none` is the `NULL`
returned when the combined size exceeds `MAX_NUMERAL_LENGTH`. -/
def add_roman_numerals (augend addend : List Char) : Option (List Char) :=
  let summandI := write_additively augend
  let summandII := write_additively addend
  let cat_length := summandI.length + summandII.length
  if cat_length > MAX_NUMERAL_LENGTH then none
  else
    match add_additive_roman_numerals summandI summandII cat_length with
    | none => none
    | some result =>
      let result := bundle_roman_symbols result
      let result := replace_substring_and_realloc result "IIII".toList "IV".toList
      some result

/-- The function `subtract_roman_numerals(void)`, which returns `NULL`. -/
def subtract_roman_numerals (_ : Unit) : Option (List Char) := none

/-! ## Notions used to state the properties

None of these is computed by the program, which never converts a numeral to a
number; they are the vocabulary of the statements below. -/

/-- The rank of a symbol: its position in `Roman_Numeral_Char`, `I` lowest and
`M` highest. -/
def rank (c : Char) : Nat := Roman_Numeral_Char.indexOf c

/-- A string over the seven symbols. -/
def over_symbols (s : List Char) : Prop := ∀ c ∈ s, c ∈ Roman_Numeral_Char

instance (s : List Char) : Decidable (over_symbols s) :=
  inferInstanceAs (Decidable (∀ c ∈ s, c ∈ Roman_Numeral_Char))

/-- Additive form: no symbol is immediately followed by a higher-ranked one. -/
def no_digraph : List Char → Bool
  | x :: y :: rest => !(decide (rank x < rank y)) && no_digraph (y :: rest)
  | _ => true

/-- A subtractive digraph: two symbols, the first of lower rank than the second. -/
def is_digraph : List Char → Bool
  | [x, y] => decide (rank x < rank y)
  | _ => false

/-- The face value of a symbol; a character that is no symbol counts for nothing. -/
def symbol_value (c : Char) : Nat :=
  if c = 'I' then 1 else if c = 'V' then 5 else if c = 'X' then 10 else if c = 'L' then 50
  else if c = 'C' then 100 else if c = 'D' then 500 else if c = 'M' then 1000 else 0

/-- The sum of the face values of the symbols of a string. -/
def additive_value (s : List Char) : Nat := (s.map symbol_value).sum

/-- The value of a numeral read in the usual way: a symbol immediately followed
by a higher-valued symbol is subtracted, every other symbol is added. -/
def roman_value : List Char → Int
  | [] => 0
  | [c] => symbol_value c
  | c :: d :: rest =>
    if symbol_value c < symbol_value d then roman_value (d :: rest) - symbol_value c
    else symbol_value c + roman_value (d :: rest)

/-- The canonical numerals of the units digits 0 to 9. -/
def units_numeral : List (List Char) :=
  [ "".toList, "I".toList, "II".toList, "III".toList, "IV".toList, "V".toList, "VI".toList,
    "VII".toList, "VIII".toList, "IX".toList ]

/-- The canonical numerals of the tens digits 0 to 9. -/
def tens_numeral : List (List Char) :=
  [ "".toList, "X".toList, "XX".toList, "XXX".toList, "XL".toList, "L".toList, "LX".toList,
    "LXX".toList, "LXXX".toList, "XC".toList ]

/-- The canonical numerals of the hundreds digits 0 to 9. -/
def hundreds_numeral : List (List Char) :=
  [ "".toList, "C".toList, "CC".toList, "CCC".toList, "CD".toList, "D".toList, "DC".toList,
    "DCC".toList, "DCCC".toList, "CM".toList ]

/-- The canonical numeral with the given thousands, hundreds, tens and units. -/
def canonical_digits (th h t u : Nat) : List Char :=
  List.replicate th 'M' ++ (hundreds_numeral.getD h [] ++ (tens_numeral.getD t [] ++
    units_numeral.getD u []))

/-- The standard canonical Roman numeral of `n`, with the subtractive forms
`IV`, `IX`, `XL`, `XC`, `CD`, `CM` for the digits 4 and 9. -/
def canonical (n : Nat) : List Char :=
  canonical_digits (n / 1000) (n / 100 % 10) (n / 10 % 10) (n % 10)

/-- The number of characters of `s` that `get_key` sends to `k`. -/
def key_count (k : Nat) (s : List Char) : Nat := s.countP (fun c => get_key c = k)

/-- The numeral made of `m` M, then `d` D, `c` C, `l` L, `x` X, `v` V and `i` I. -/
def descending_numeral (m d c l x v i : Nat) : List Char :=
  List.replicate m 'M' ++ (List.replicate d 'D' ++ (List.replicate c 'C' ++
    (List.replicate l 'L' ++ (List.replicate x 'X' ++ (List.replicate v 'V' ++
      List.replicate i 'I')))))

/-- The symbols of `s` regrouped by key, highest first. -/
def merged (s : List Char) : List Char :=
  descending_numeral (key_count RN_M s) (key_count RN_D s) (key_count RN_C s) (key_count RN_L s)
    (key_count RN_X s) (key_count RN_V s) (key_count RN_I s)

/-- The numeral that the sum `N` of two canonical numerals comes out as: the
thousands as M, then per decimal digit one five-symbol if the digit is 5 or
more and the rest in unit symbols, a final `IIII` being written `IV`. -/
def carried_sum_numeral (N : Nat) : List Char :=
  List.replicate (N / 1000) 'M' ++
    ((if 5 ≤ N / 100 % 10 then ['D'] else []) ++ (List.replicate (N / 100 % 10 % 5) 'C' ++
    ((if 5 ≤ N / 10 % 10 then ['L'] else []) ++ (List.replicate (N / 10 % 10 % 5) 'X' ++
    ((if 5 ≤ N % 10 then ['V'] else []) ++
      (if N % 10 % 5 = 4 then ['I', 'V'] else List.replicate (N % 10 % 5) 'I'))))))

/-- The additive numeral of `n` with the fewest symbols: per decimal digit one
five-symbol if the digit is 5 or more, and the rest in unit symbols. -/
def additive_numeral (n : Nat) : List Char :=
  descending_numeral (n / 1000) (n / 100 % 10 / 5) (n / 100 % 10 % 5) (n / 10 % 10 / 5)
    (n / 10 % 10 % 5) (n % 10 / 5) (n % 10 % 5)

/-- Enough copies of one symbol, counted over the whole string, for a further
carry: five I, two V, five X, two L, five C or two D. -/
def holds_carry (s : List Char) : Bool :=
  decide (5 ≤ s.count 'I') || decide (2 ≤ s.count 'V') || decide (5 ≤ s.count 'X') ||
    decide (2 ≤ s.count 'L') || decide (5 ≤ s.count 'C') || decide (2 ≤ s.count 'D')

/-- The expansion of the digraph `(low, high)` in the words of the data model:
`value high / value low - 1` copies of `low` followed by one `high`. -/
def spec_expansion (low high : Char) : List Char :=
  List.replicate (symbol_value high / symbol_value low - 1) low ++ [high]

/-- The lower symbol of entry `i` of `Subtractive_Form`. -/
def form_low (i : Nat) : Char := (Subtractive_Form.getD i []).getD 0 'I'

/-- The higher symbol of entry `i` of `Subtractive_Form`. -/
def form_high (i : Nat) : Char := (Subtractive_Form.getD i []).getD 1 'I'

/-! ## Facts about the replace-all primitive -/

/-- The two tables of `write_additively` have `SF_LAST` entries each, and the
two tables of `bundle_roman_symbols` nine each. -/
theorem tables_length :
    Subtractive_Form.length = SF_LAST ∧ Replacement_for_Subtractive.length = SF_LAST ∧
      bundles.length = 9 ∧ replacements.length = 9 := by
  decide

/-- Passing over `skip` characters of a match is dropping them. -/
theorem replace_scan_skip (p r : List Char) (skip : Nat) (s : List Char) :
    replace_scan p r skip s = replace_scan p r 0 (s.drop skip) := by
  induction s generalizing skip with
  | nil => simp [replace_scan]
  | cons c rest ih =>
    cases skip with
    | zero => simp
    | succ k => simp [replace_scan, ih k]

theorem replace_scan_nil (p r : List Char) : replace_scan p r 0 [] = [] := by
  simp [replace_scan]

theorem replace_scan_match (p r t : List Char) (hp : p ≠ []) :
    replace_scan p r 0 (p ++ t) = r ++ replace_scan p r 0 t := by
  cases p with
  | nil => exact absurd rfl hp
  | cons c q =>
    have h : (c :: q).isPrefixOf (c :: (q ++ t)) = true := by
      rw [List.isPrefixOf_iff_prefix]
      exact List.prefix_append (c :: q) t
    rw [List.cons_append, replace_scan, if_pos h, replace_scan_skip]
    simp

theorem replace_scan_step (p r : List Char) (c : Char) (rest : List Char)
    (h : ¬ p <+: c :: rest) :
    replace_scan p r 0 (c :: rest) = c :: replace_scan p r 0 rest := by
  have h' : ¬ (p.isPrefixOf (c :: rest) = true) := by
    rw [List.isPrefixOf_iff_prefix]; exact h
  rw [replace_scan, if_neg h']

theorem replace_scan_of_absent (p r s : List Char) (h : ¬ p <:+: s) :
    replace_scan p r 0 s = s := by
  induction s with
  | nil => exact replace_scan_nil p r
  | cons c rest ih =>
    have h1 : ¬ p <+: c :: rest := fun hp => h hp.isInfix
    have h2 : ¬ p <:+: rest := fun hp => h (hp.trans (List.suffix_cons c rest).isInfix)
    rw [replace_scan_step p r c rest h1, ih h2]

/-- A pattern that occurs nowhere leaves the string as it is. -/
theorem replace_substring_of_absent (s p r : List Char) (h : ¬ p <:+: s) :
    replace_substring s p r = s := by
  unfold replace_substring
  split
  · rfl
  · exact replace_scan_of_absent p r s h

theorem replace_substring_match (p r t : List Char) (hp : p ≠ []) :
    replace_substring (p ++ t) p r = r ++ replace_substring t p r := by
  simp [replace_substring, hp, replace_scan_match]

theorem replace_substring_step (p r : List Char) (c : Char) (rest : List Char)
    (h : ¬ p <+: c :: rest) :
    replace_substring (c :: rest) p r = c :: replace_substring rest p r := by
  unfold replace_substring
  split
  · rfl
  · exact replace_scan_step p r c rest h

theorem replace_substring_nil (p r : List Char) : replace_substring [] p r = [] := by
  unfold replace_substring
  split
  · rfl
  · exact replace_scan_nil p r

/-- Every string is empty, or starts with a match that is replaced, or starts
with a character that is copied. -/
theorem replace_substring_cases (p r s : List Char) (hp : p ≠ []) :
    s = [] ∨ (∃ t, s = p ++ t ∧ replace_substring s p r = r ++ replace_substring t p r) ∨
      (∃ c rest, s = c :: rest ∧ replace_substring s p r = c :: replace_substring rest p r) := by
  cases s with
  | nil => exact Or.inl rfl
  | cons c rest =>
    right
    by_cases h : p <+: c :: rest
    · left
      obtain ⟨t, ht⟩ := h
      exact ⟨t, ht.symm, by rw [← ht, replace_substring_match p r t hp]⟩
    · right
      exact ⟨c, rest, rfl, replace_substring_step p r c rest h⟩

/-! ## The merger -/

/-- The loop of `get_key` has left by itself before its fuel runs out: more
fuel does not change what it returns. -/
theorem get_key_loop_fuel (symbol : Char) (fuel extra result : Nat) (hr : result < RN_LAST)
    (hf : RN_LAST ≤ result + fuel) :
    get_key_loop symbol (fuel + extra) result = get_key_loop symbol fuel result := by
  induction fuel generalizing result with
  | zero => omega
  | succ fuel ih =>
    rw [Nat.add_right_comm, get_key_loop, get_key_loop]
    split
    · rename_i h
      exact ih (result + 1) h.2 (by omega)
    · rfl

/-- What `get_key` computes: the index of a symbol, and `RN_M` for any other
character (the loop is left with `result = RN_LAST`, which is then decremented). -/
theorem get_key_eq (c : Char) :
    get_key c = if c = 'I' then 0 else if c = 'V' then 1 else if c = 'X' then 2
      else if c = 'L' then 3 else if c = 'C' then 4 else if c = 'D' then 5 else 6 := by
  simp only [get_key, get_key_loop, Roman_Numeral_Char_at, Roman_Numeral_Char, RN_LAST, RN_I]
  split_ifs <;> simp_all

theorem get_key_lt (c : Char) : get_key c < RN_LAST := by
  rw [get_key_eq, RN_LAST]
  split_ifs <;> decide

/-- The counting loop adds to each entry the number of characters with that key. -/
theorem count_loop_apply (cnt : Nat → Nat) (c : Char) (rest : List Char) (j : Nat) :
    count_loop cnt c rest j = cnt j + key_count j (c :: rest) := by
  induction rest generalizing cnt c with
  | nil =>
    simp only [count_loop, increment, key_count, List.countP_cons, List.countP_nil]
    by_cases h : j = get_key c
    · simp [h]
    · have h' : ¬ get_key c = j := fun e => h e.symm
      simp [h, h']
  | cons d rest ih =>
    rw [count_loop, ih]
    simp only [increment, key_count, List.countP_cons]
    by_cases h : j = get_key c
    · simp [h]; omega
    · have h' : ¬ get_key c = j := fun e => h e.symm
      simp [h, h']

theorem emit_loop_eq (cnt : Nat → Nat) :
    emit_loop cnt RN_LAST [] =
      descending_numeral (cnt 6) (cnt 5) (cnt 4) (cnt 3) (cnt 2) (cnt 1) (cnt 0) := by
  simp [emit_loop, RN_LAST, descending_numeral, Roman_Numeral_Char_at, Roman_Numeral_Char]

theorem length_descending_numeral (m d c l x v i : Nat) :
    (descending_numeral m d c l x v i).length = m + d + c + l + x + v + i := by
  simp [descending_numeral]; omega

theorem key_count_append (k : Nat) (s t : List Char) :
    key_count k (s ++ t) = key_count k s + key_count k t := by
  simp [key_count]

theorem key_count_total (s : List Char) :
    key_count 6 s + key_count 5 s + key_count 4 s + key_count 3 s + key_count 2 s
      + key_count 1 s + key_count 0 s = s.length := by
  induction s with
  | nil => simp [key_count]
  | cons c rest ih =>
    have h := get_key_lt c
    simp only [key_count, List.countP_cons, List.length_cons] at ih ⊢
    rw [RN_LAST] at h
    have h7 : get_key c = 0 ∨ get_key c = 1 ∨ get_key c = 2 ∨ get_key c = 3 ∨ get_key c = 4
        ∨ get_key c = 5 ∨ get_key c = 6 := by omega
    rcases h7 with e | e | e | e | e | e | e <;> simp [e] <;> omega

theorem length_merged (s : List Char) : (merged s).length = s.length := by
  rw [merged, length_descending_numeral]
  exact key_count_total s

/-- The merger on two non-empty strings: the symbols regrouped by key, provided
the buffer is long enough. -/
theorem add_additive_eq (a b : List Char) (n : Nat) (ha : a ≠ []) (hb : b ≠ []) :
    add_additive_roman_numerals a b n =
      if a.length + b.length ≤ n then some (merged (a ++ b)) else none := by
  cases a with
  | nil => exact absurd rfl ha
  | cons ca ra =>
    cases b with
    | nil => exact absurd rfl hb
    | cons cb rb =>
      have hw : emit_loop (count_loop (count_loop (fun _ => 0) ca ra) cb rb) RN_LAST []
          = merged (ca :: ra ++ cb :: rb) := by
        rw [emit_loop_eq, merged]
        simp only [count_loop_apply, key_count_append, RN_M, RN_D, RN_C, RN_L, RN_X, RN_V, RN_I,
          Nat.zero_add]
      simp only [add_additive_roman_numerals, count_symbols]
      rw [hw, length_merged, List.length_append]

/-! ## Replacing runs of one character -/

theorem not_infix_of_count_lt (c : Char) (k : Nat) (s : List Char) (h : s.count c < k) :
    ¬ List.replicate k c <:+: s := by
  intro hin
  have := hin.sublist.count_le c
  rw [List.count_replicate_self] at this
  omega

theorem replace_run_nil (c : Char) (r : List Char) (k : Nat) (hk : 0 < k) (post : List Char)
    (hpost : c ∉ post) (n : Nat) :
    replace_substring (List.replicate n c ++ post) (List.replicate k c) r =
      (List.replicate (n / k) r).flatten ++ (List.replicate (n % k) c ++ post) := by
  induction n using Nat.strong_induction_on with
  | _ n ih =>
    by_cases hn : n < k
    · rw [Nat.div_eq_of_lt hn, Nat.mod_eq_of_lt hn]
      apply replace_substring_of_absent
      apply not_infix_of_count_lt
      rw [List.count_append, List.count_replicate_self, List.count_eq_zero_of_not_mem hpost]
      exact hn
    · have hkn : k ≤ n := Nat.le_of_not_lt hn
      have hne : List.replicate k c ≠ [] := by
        intro e
        have := congrArg List.length e
        simp at this
        omega
      have e1 : List.replicate n c ++ post
          = List.replicate k c ++ (List.replicate (n - k) c ++ post) := by
        rw [← List.append_assoc, ← List.replicate_add]
        congr 2
        omega
      have e2 : n / k = (n - k) / k + 1 := by
        rw [Nat.div_eq n k, if_pos ⟨hk, hkn⟩]
      have e3 : n % k = (n - k) % k := Nat.mod_eq_sub_mod hkn
      rw [e1, replace_substring_match _ _ _ hne, ih (n - k) (by omega), e2, e3,
        List.replicate_succ, List.flatten_cons, List.append_assoc]

/-- Replacing runs of `k` copies of `c` in a string whose only `c` are one run of
`n`: `n / k` replacements, then the `n % k` copies left over. -/
theorem replace_run (c : Char) (r : List Char) (k : Nat) (hk : 0 < k) (pre post : List Char)
    (hpre : c ∉ pre) (hpost : c ∉ post) (n : Nat) :
    replace_substring (pre ++ (List.replicate n c ++ post)) (List.replicate k c) r =
      pre ++ ((List.replicate (n / k) r).flatten ++ (List.replicate (n % k) c ++ post)) := by
  induction pre with
  | nil => exact replace_run_nil c r k hk post hpost n
  | cons x pre ih =>
    have hx : x ≠ c := fun e => hpre (by simp [e])
    have hpre' : c ∉ pre := fun h => hpre (List.mem_cons_of_mem x h)
    have hnp : ¬ List.replicate k c <+: x :: (pre ++ (List.replicate n c ++ post)) := by
      obtain ⟨j, rfl⟩ : ∃ j, k = j + 1 := ⟨k - 1, by omega⟩
      rw [List.replicate_succ, List.cons_prefix_cons]
      exact fun h => hx h.1.symm
    rw [List.cons_append, replace_substring_step _ _ _ _ hnp, ih hpre', List.cons_append]

/-- One run-replacement rule of the bundler with a one-symbol replacement. -/
theorem replace_run_symbol (c r : Char) (k : Nat) (hk : 0 < k) (pre post : List Char)
    (hpre : c ∉ pre) (hpost : c ∉ post) (n : Nat) :
    replace_substring (pre ++ (List.replicate n c ++ post)) (List.replicate k c) [r] =
      pre ++ (List.replicate (n / k) r ++ (List.replicate (n % k) c ++ post)) := by
  rw [replace_run c [r] k hk pre post hpre hpost n, List.flatten_replicate_singleton]

/-- The three rules of one decimal level: ten units, five units, two fives. -/
theorem carry_level (U F B : Char) (hUF : U ≠ F) (hUB : U ≠ B) (hFB : F ≠ B)
    (pre post : List Char) (hUpre : U ∉ pre) (hFpre : F ∉ pre) (hUpost : U ∉ post)
    (hFpost : F ∉ post) (b f u : Nat) (hu : u < 10) :
    replace_substring (replace_substring (replace_substring
        (pre ++ (List.replicate b B ++ (List.replicate f F ++ (List.replicate u U ++ post))))
        (List.replicate 10 U) [B]) (List.replicate 5 U) [F]) (List.replicate 2 F) [B] =
      pre ++ (List.replicate (b + (f + u / 5) / 2) B ++
        (List.replicate ((f + u / 5) % 2) F ++ (List.replicate (u % 5) U ++ post))) := by
  have s1 : replace_substring
      (pre ++ (List.replicate b B ++ (List.replicate f F ++ (List.replicate u U ++ post))))
      (List.replicate 10 U) [B] =
      pre ++ (List.replicate b B ++ (List.replicate f F ++ (List.replicate u U ++ post))) := by
    have := replace_run_symbol U B 10 (by decide)
      (pre ++ (List.replicate b B ++ List.replicate f F)) post
      (by simp [List.mem_append, List.mem_replicate, hUpre, hUB, hUF]) hUpost u
    rw [Nat.div_eq_of_lt hu, Nat.mod_eq_of_lt hu] at this
    simpa [List.append_assoc] using this
  have s2 : replace_substring
      (pre ++ (List.replicate b B ++ (List.replicate f F ++ (List.replicate u U ++ post))))
      (List.replicate 5 U) [F] =
      pre ++ (List.replicate b B ++ (List.replicate (f + u / 5) F ++
        (List.replicate (u % 5) U ++ post))) := by
    have := replace_run_symbol U F 5 (by decide)
      (pre ++ (List.replicate b B ++ List.replicate f F)) post
      (by simp [List.mem_append, List.mem_replicate, hUpre, hUB, hUF]) hUpost u
    rw [List.replicate_add]
    simp only [List.append_assoc] at this ⊢
    exact this
  have s3 : replace_substring
      (pre ++ (List.replicate b B ++ (List.replicate (f + u / 5) F ++
        (List.replicate (u % 5) U ++ post))))
      (List.replicate 2 F) [B] =
      pre ++ (List.replicate (b + (f + u / 5) / 2) B ++
        (List.replicate ((f + u / 5) % 2) F ++ (List.replicate (u % 5) U ++ post))) := by
    have := replace_run_symbol F B 2 (by decide)
      (pre ++ List.replicate b B) (List.replicate (u % 5) U ++ post)
      (by simp [List.mem_append, List.mem_replicate, hFpre, hFB])
      (by simp [List.mem_append, List.mem_replicate, hFpost, Ne.symm hUF]) (f + u / 5)
    rw [List.replicate_add b]
    simp only [List.append_assoc] at this ⊢
    exact this
  rw [s1, s2, s3]

/-! ## The bundler on descending numerals -/

/-- The nine rules of the bundler, in the order of the table. -/
theorem bundle_roman_symbols_eq (s : List Char) :
    bundle_roman_symbols s =
      replace_substring (replace_substring (replace_substring
        (replace_substring (replace_substring (replace_substring
          (replace_substring (replace_substring (replace_substring s
            (List.replicate 10 'I') ['X']) (List.replicate 5 'I') ['V'])
            (List.replicate 2 'V') ['X'])
          (List.replicate 10 'X') ['C']) (List.replicate 5 'X') ['L'])
          (List.replicate 2 'L') ['C'])
        (List.replicate 10 'C') ['M']) (List.replicate 5 'C') ['D'])
        (List.replicate 2 'D') ['M'] := rfl

theorem bundle_descending (m d c l x v i : Nat) (hi : i < 10)
    (hx : x + (v + i / 5) / 2 < 10)
    (hc : c + (l + (x + (v + i / 5) / 2) / 5) / 2 < 10) :
    bundle_roman_symbols (descending_numeral m d c l x v i) =
      descending_numeral
        (m + (d + (c + (l + (x + (v + i / 5) / 2) / 5) / 2) / 5) / 2)
        ((d + (c + (l + (x + (v + i / 5) / 2) / 5) / 2) / 5) % 2)
        ((c + (l + (x + (v + i / 5) / 2) / 5) / 2) % 5)
        ((l + (x + (v + i / 5) / 2) / 5) % 2)
        ((x + (v + i / 5) / 2) % 5)
        ((v + i / 5) % 2)
        (i % 5) := by
  rw [bundle_roman_symbols_eq]
  have l1 := carry_level 'I' 'V' 'X' (by decide) (by decide) (by decide)
    (List.replicate m 'M' ++ (List.replicate d 'D' ++ (List.replicate c 'C' ++
      List.replicate l 'L'))) []
    (by simp [List.mem_append, List.mem_replicate])
    (by simp [List.mem_append, List.mem_replicate])
    (by simp) (by simp) x v i hi
  have l2 := carry_level 'X' 'L' 'C' (by decide) (by decide) (by decide)
    (List.replicate m 'M' ++ List.replicate d 'D')
    (List.replicate ((v + i / 5) % 2) 'V' ++ List.replicate (i % 5) 'I')
    (by simp [List.mem_append, List.mem_replicate])
    (by simp [List.mem_append, List.mem_replicate])
    (by simp [List.mem_append, List.mem_replicate])
    (by simp [List.mem_append, List.mem_replicate]) c l (x + (v + i / 5) / 2) hx
  have l3 := carry_level 'C' 'D' 'M' (by decide) (by decide) (by decide)
    []
    (List.replicate ((l + (x + (v + i / 5) / 2) / 5) % 2) 'L' ++
      (List.replicate ((x + (v + i / 5) / 2) % 5) 'X' ++
        (List.replicate ((v + i / 5) % 2) 'V' ++ List.replicate (i % 5) 'I')))
    (by simp) (by simp)
    (by simp [List.mem_append, List.mem_replicate])
    (by simp [List.mem_append, List.mem_replicate]) m d
    (c + (l + (x + (v + i / 5) / 2) / 5) / 2) hc
  simp only [List.append_assoc, List.append_nil, List.nil_append] at l1 l2 l3
  simp only [descending_numeral]
  rw [l1, l2, l3]

/-! ## The subtractive reading -/

theorem roman_value_cons (c : Char) (s : List Char)
    (h : ∀ y ∈ s, symbol_value y ≤ symbol_value c) :
    roman_value (c :: s) = symbol_value c + roman_value s := by
  cases s with
  | nil => simp [roman_value]
  | cons d rest =>
    have hd : ¬ symbol_value c < symbol_value d := Nat.not_lt.mpr (h d (by simp))
    rw [roman_value, if_neg hd]

theorem roman_value_replicate_append (c : Char) (k : Nat) (s : List Char)
    (h : ∀ y ∈ s, symbol_value y ≤ symbol_value c) :
    roman_value (List.replicate k c ++ s) = k * symbol_value c + roman_value s := by
  induction k with
  | zero => simp
  | succ k ih =>
    have hk : ∀ y ∈ List.replicate k c ++ s, symbol_value y ≤ symbol_value c := by
      intro y hy
      rcases List.mem_append.mp hy with hy | hy
      · rw [(List.mem_replicate.mp hy).2]
      · exact h y hy
    rw [List.replicate_succ, List.cons_append, roman_value_cons c _ hk, ih]
    push_cast
    ring

theorem symbol_value_le_of_mem (v : Nat) (s t : List Char) (hs : ∀ y ∈ s, symbol_value y ≤ v)
    (ht : ∀ y ∈ t, symbol_value y ≤ v) : ∀ y ∈ s ++ t, symbol_value y ≤ v := by
  intro y hy
  rcases List.mem_append.mp hy with hy | hy
  · exact hs y hy
  · exact ht y hy

theorem symbol_value_le_replicate (v : Nat) (c : Char) (k : Nat) (h : symbol_value c ≤ v) :
    ∀ y ∈ List.replicate k c, symbol_value y ≤ v := by
  intro y hy
  rw [(List.mem_replicate.mp hy).2]
  exact h

theorem roman_value_descending_append (m d c l x v : Nat) (tail : List Char)
    (h : ∀ y ∈ tail, symbol_value y ≤ 5) :
    roman_value (List.replicate m 'M' ++ (List.replicate d 'D' ++ (List.replicate c 'C' ++
      (List.replicate l 'L' ++ (List.replicate x 'X' ++ (List.replicate v 'V' ++ tail)))))) =
      1000 * m + 500 * d + 100 * c + 50 * l + 10 * x + 5 * v + roman_value tail := by
  have hV : ∀ y ∈ List.replicate v 'V' ++ tail, symbol_value y ≤ 10 :=
    symbol_value_le_of_mem 10 _ _ (symbol_value_le_replicate 10 'V' v (by decide))
      (fun y hy => Nat.le_trans (h y hy) (by decide))
  have hX : ∀ y ∈ List.replicate x 'X' ++ (List.replicate v 'V' ++ tail),
      symbol_value y ≤ 50 :=
    symbol_value_le_of_mem 50 _ _ (symbol_value_le_replicate 50 'X' x (by decide))
      (fun y hy => Nat.le_trans (hV y hy) (by decide))
  have hL : ∀ y ∈ List.replicate l 'L' ++ (List.replicate x 'X' ++ (List.replicate v 'V' ++ tail)),
      symbol_value y ≤ 100 :=
    symbol_value_le_of_mem 100 _ _ (symbol_value_le_replicate 100 'L' l (by decide))
      (fun y hy => Nat.le_trans (hX y hy) (by decide))
  have hC : ∀ y ∈ List.replicate c 'C' ++ (List.replicate l 'L' ++ (List.replicate x 'X' ++
      (List.replicate v 'V' ++ tail))), symbol_value y ≤ 500 :=
    symbol_value_le_of_mem 500 _ _ (symbol_value_le_replicate 500 'C' c (by decide))
      (fun y hy => Nat.le_trans (hL y hy) (by decide))
  have hD : ∀ y ∈ List.replicate d 'D' ++ (List.replicate c 'C' ++ (List.replicate l 'L' ++
      (List.replicate x 'X' ++ (List.replicate v 'V' ++ tail)))), symbol_value y ≤ 1000 :=
    symbol_value_le_of_mem 1000 _ _ (symbol_value_le_replicate 1000 'D' d (by decide))
      (fun y hy => Nat.le_trans (hC y hy) (by decide))
  rw [roman_value_replicate_append 'M' m _ hD, roman_value_replicate_append 'D' d _ hC,
    roman_value_replicate_append 'C' c _ hL, roman_value_replicate_append 'L' l _ hX,
    roman_value_replicate_append 'X' x _ hV, roman_value_replicate_append 'V' v _ h]
  have e1 : symbol_value 'M' = 1000 := by decide
  have e2 : symbol_value 'D' = 500 := by decide
  have e3 : symbol_value 'C' = 100 := by decide
  have e4 : symbol_value 'L' = 50 := by decide
  have e5 : symbol_value 'X' = 10 := by decide
  have e6 : symbol_value 'V' = 5 := by decide
  rw [e1, e2, e3, e4, e5, e6]
  push_cast
  ring

theorem roman_value_restore (m d c l x v i : Nat) (hi : i < 5) :
    roman_value (replace_substring_and_realloc (descending_numeral m d c l x v i)
      "IIII".toList "IV".toList) =
      1000 * m + 500 * d + 100 * c + 50 * l + 10 * x + 5 * v + i := by
  have hr := replace_run 'I' "IV".toList 4 (by decide)
    (List.replicate m 'M' ++ (List.replicate d 'D' ++ (List.replicate c 'C' ++
      (List.replicate l 'L' ++ (List.replicate x 'X' ++ List.replicate v 'V'))))) []
    (by simp [List.mem_append, List.mem_replicate]) (by simp) i
  have hp : "IIII".toList = List.replicate 4 'I' := rfl
  simp only [List.append_assoc, List.append_nil] at hr
  rw [replace_substring_and_realloc, descending_numeral, hp, hr]
  rw [roman_value_descending_append]
  · interval_cases i <;> simp [roman_value, symbol_value]
  · interval_cases i <;> simp [symbol_value]

/-! ## The normalizer on canonical numerals -/

theorem replace_substring_cons_of_head (x : Char) (s p r : List Char)
    (h : p.head? ≠ some x) :
    replace_substring (x :: s) p r = x :: replace_substring s p r := by
  cases p with
  | nil => simp [replace_substring]
  | cons y q =>
    apply replace_substring_step
    intro hp
    rw [List.cons_prefix_cons] at hp
    exact h (by simp [hp.1])

theorem write_additively_loop_cons (x : Char) (rules : List (List Char × List Char))
    (h : ∀ rule ∈ rules, rule.1.head? ≠ some x) (s : List Char) :
    write_additively_loop rules (x :: s) = x :: write_additively_loop rules s := by
  induction rules generalizing s with
  | nil => rfl
  | cons rule rules ih =>
    obtain ⟨p, r⟩ := rule
    have hp : p.head? ≠ some x := h (p, r) (by simp)
    rw [write_additively_loop, replace_substring_cons_of_head x s p r hp,
      ih (fun rule hr => h rule (List.mem_cons_of_mem _ hr)), write_additively_loop]

theorem write_additively_thousands (th : Nat) (s : List Char) :
    write_additively (List.replicate th 'M' ++ s) =
      List.replicate th 'M' ++ write_additively s := by
  induction th with
  | zero => simp
  | succ k ih =>
    have h : ∀ rule ∈ Subtractive_Form.zip Replacement_for_Subtractive,
        rule.1.head? ≠ some 'M' := by decide
    rw [List.replicate_succ, List.cons_append, write_additively,
      write_additively_loop_cons 'M' _ h, ← write_additively, ih, List.cons_append]

set_option maxRecDepth 10000 in
/-- The normalizer on the thousand canonical numerals below 1000, by evaluation. -/
theorem write_additively_below_thousand :
    ∀ h, h < 10 → ∀ t, t < 10 → ∀ u, u < 10 →
      write_additively (canonical_digits 0 h t u) =
        descending_numeral 0 (h / 5) (h % 5) (t / 5) (t % 5) (u / 5) (u % 5) := by
  decide!

theorem write_additively_canonical_digits (th h t u : Nat) (hh : h < 10) (ht : t < 10)
    (hu : u < 10) :
    write_additively (canonical_digits th h t u) =
      descending_numeral th (h / 5) (h % 5) (t / 5) (t % 5) (u / 5) (u % 5) := by
  have e1 : canonical_digits th h t u = List.replicate th 'M' ++ canonical_digits 0 h t u := by
    simp [canonical_digits]
  have e2 : descending_numeral th (h / 5) (h % 5) (t / 5) (t % 5) (u / 5) (u % 5) =
      List.replicate th 'M' ++
        descending_numeral 0 (h / 5) (h % 5) (t / 5) (t % 5) (u / 5) (u % 5) := by
    simp [descending_numeral]
  rw [e1, e2, write_additively_thousands, write_additively_below_thousand h hh t ht u hu]

theorem write_additively_canonical (n : Nat) :
    write_additively (canonical n) =
      descending_numeral (n / 1000) (n / 100 % 10 / 5) (n / 100 % 10 % 5) (n / 10 % 10 / 5)
        (n / 10 % 10 % 5) (n % 10 / 5) (n % 10 % 5) :=
  write_additively_canonical_digits _ _ _ _ (Nat.mod_lt _ (by decide))
    (Nat.mod_lt _ (by decide)) (Nat.mod_lt _ (by decide))

theorem key_count_descending (m d c l x v i : Nat) :
    key_count RN_M (descending_numeral m d c l x v i) = m ∧
    key_count RN_D (descending_numeral m d c l x v i) = d ∧
    key_count RN_C (descending_numeral m d c l x v i) = c ∧
    key_count RN_L (descending_numeral m d c l x v i) = l ∧
    key_count RN_X (descending_numeral m d c l x v i) = x ∧
    key_count RN_V (descending_numeral m d c l x v i) = v ∧
    key_count RN_I (descending_numeral m d c l x v i) = i := by
  simp [key_count, descending_numeral, List.countP_append, List.countP_replicate, get_key_eq,
    RN_M, RN_D, RN_C, RN_L, RN_X, RN_V, RN_I]

theorem merged_descending (m d c l x v i m2 d2 c2 l2 x2 v2 i2 : Nat) :
    merged (descending_numeral m d c l x v i ++ descending_numeral m2 d2 c2 l2 x2 v2 i2) =
      descending_numeral (m + m2) (d + d2) (c + c2) (l + l2) (x + x2) (v + v2) (i + i2) := by
  obtain ⟨a1, a2, a3, a4, a5, a6, a7⟩ := key_count_descending m d c l x v i
  obtain ⟨b1, b2, b3, b4, b5, b6, b7⟩ := key_count_descending m2 d2 c2 l2 x2 v2 i2
  simp only [merged, key_count_append, a1, a2, a3, a4, a5, a6, a7, b1, b2, b3, b4, b5, b6, b7]

/-! ## The pipeline -/

/-- The four stages of `add_roman_numerals` when the capacity test passes. -/
theorem add_roman_numerals_eq (a b : List Char) (ha : write_additively a ≠ [])
    (hb : write_additively b ≠ [])
    (hcap : (write_additively a).length + (write_additively b).length ≤ MAX_NUMERAL_LENGTH) :
    add_roman_numerals a b =
      some (replace_substring_and_realloc
        (bundle_roman_symbols (merged (write_additively a ++ write_additively b)))
        "IIII".toList "IV".toList) := by
  have hcap' : ¬ (write_additively a).length + (write_additively b).length
      > MAX_NUMERAL_LENGTH := Nat.not_lt.mpr hcap
  simp only [add_roman_numerals, if_neg hcap', add_additive_eq _ _ _ ha hb, le_refl, if_true]

theorem length_additive_digits (th h t u : Nat) (hth : th < 4) (hh : h < 10) (ht : t < 10)
    (hu : u < 10) (hpos : 1 ≤ 1000 * th + 100 * h + 10 * t + u) :
    1 ≤ (descending_numeral th (h / 5) (h % 5) (t / 5) (t % 5) (u / 5) (u % 5)).length ∧
      (descending_numeral th (h / 5) (h % 5) (t / 5) (t % 5) (u / 5) (u % 5)).length ≤ 18 := by
  rw [length_descending_numeral]
  omega

theorem carry_bound (x v i : Nat) (hx : x ≤ 8) (hv : v ≤ 2) (hi : i ≤ 9) :
    x + (v + i / 5) / 2 ≤ 9 := by
  omega

theorem digit_split (h : Nat) (hh : h < 10) :
    h / 5 ≤ 1 ∧ h % 5 ≤ 4 ∧ 5 * (h / 5) + h % 5 = h := by
  omega

theorem summed_value (th1 h1 t1 u1 th2 h2 t2 u2 : Nat) :
    1000 * (th1 + th2) + 500 * (h1 / 5 + h2 / 5) + 100 * (h1 % 5 + h2 % 5)
      + 50 * (t1 / 5 + t2 / 5) + 10 * (t1 % 5 + t2 % 5) + 5 * (u1 / 5 + u2 / 5)
      + (u1 % 5 + u2 % 5)
      = (1000 * th1 + 100 * h1 + 10 * t1 + u1) + (1000 * th2 + 100 * h2 + 10 * t2 + u2) := by
  omega

theorem carried_value (m d c l x v i : Nat) :
    1000 * (m + (d + (c + (l + (x + (v + i / 5) / 2) / 5) / 2) / 5) / 2)
      + 500 * ((d + (c + (l + (x + (v + i / 5) / 2) / 5) / 2) / 5) % 2)
      + 100 * ((c + (l + (x + (v + i / 5) / 2) / 5) / 2) % 5)
      + 50 * ((l + (x + (v + i / 5) / 2) / 5) % 2)
      + 10 * ((x + (v + i / 5) / 2) % 5)
      + 5 * ((v + i / 5) % 2)
      + i % 5 = 1000 * m + 500 * d + 100 * c + 50 * l + 10 * x + 5 * v + i := by
  omega

theorem add_canonical_digits_value (th1 h1 t1 u1 th2 h2 t2 u2 : Nat)
    (hth1 : th1 < 4) (hh1 : h1 < 10) (ht1 : t1 < 10) (hu1 : u1 < 10)
    (hth2 : th2 < 4) (hh2 : h2 < 10) (ht2 : t2 < 10) (hu2 : u2 < 10)
    (hpos1 : 1 ≤ 1000 * th1 + 100 * h1 + 10 * t1 + u1)
    (hpos2 : 1 ≤ 1000 * th2 + 100 * h2 + 10 * t2 + u2) :
    ∃ r, add_roman_numerals (canonical_digits th1 h1 t1 u1) (canonical_digits th2 h2 t2 u2)
        = some r ∧
      roman_value r = ((1000 * th1 + 100 * h1 + 10 * t1 + u1 : Nat) : Int)
        + ((1000 * th2 + 100 * h2 + 10 * t2 + u2 : Nat) : Int) := by
  have w1 := write_additively_canonical_digits th1 h1 t1 u1 hh1 ht1 hu1
  have w2 := write_additively_canonical_digits th2 h2 t2 u2 hh2 ht2 hu2
  have n1 := length_additive_digits th1 h1 t1 u1 hth1 hh1 ht1 hu1 hpos1
  have n2 := length_additive_digits th2 h2 t2 u2 hth2 hh2 ht2 hu2 hpos2
  rw [← w1] at n1
  rw [← w2] at n2
  have ha : write_additively (canonical_digits th1 h1 t1 u1) ≠ [] := by
    intro e
    rw [e] at n1
    simp at n1
  have hb : write_additively (canonical_digits th2 h2 t2 u2) ≠ [] := by
    intro e
    rw [e] at n2
    simp at n2
  have hcap : (write_additively (canonical_digits th1 h1 t1 u1)).length +
      (write_additively (canonical_digits th2 h2 t2 u2)).length ≤ MAX_NUMERAL_LENGTH := by
    rw [MAX_NUMERAL_LENGTH]
    omega
  refine ⟨_, add_roman_numerals_eq _ _ ha hb hcap, ?_⟩
  obtain ⟨dh1, dh1', -⟩ := digit_split h1 hh1
  obtain ⟨dh2, dh2', -⟩ := digit_split h2 hh2
  obtain ⟨dt1, dt1', -⟩ := digit_split t1 ht1
  obtain ⟨dt2, dt2', -⟩ := digit_split t2 ht2
  obtain ⟨du1, du1', -⟩ := digit_split u1 hu1
  obtain ⟨du2, du2', -⟩ := digit_split u2 hu2
  have bi : u1 % 5 + u2 % 5 ≤ 9 := by omega
  have bx := carry_bound (t1 % 5 + t2 % 5) (u1 / 5 + u2 / 5) (u1 % 5 + u2 % 5)
    (Nat.add_le_add dt1' dt2') (Nat.add_le_add du1 du2) bi
  have bc := carry_bound (h1 % 5 + h2 % 5) (t1 / 5 + t2 / 5) _
    (Nat.add_le_add dh1' dh2') (Nat.add_le_add dt1 dt2) bx
  rw [w1, w2, merged_descending,
    bundle_descending _ _ _ _ _ _ _ (Nat.lt_succ_of_le bi) (Nat.lt_succ_of_le bx)
      (Nat.lt_succ_of_le bc),
    roman_value_restore _ _ _ _ _ _ _ (Nat.mod_lt _ (by decide))]
  have key := carried_value (th1 + th2) (h1 / 5 + h2 / 5) (h1 % 5 + h2 % 5) (t1 / 5 + t2 / 5)
    (t1 % 5 + t2 % 5) (u1 / 5 + u2 / 5) (u1 % 5 + u2 % 5)
  rw [summed_value th1 h1 t1 u1 th2 h2 t2 u2] at key
  exact_mod_cast key

theorem digits_eq (n : Nat) :
    1000 * (n / 1000) + 100 * (n / 100 % 10) + 10 * (n / 10 % 10) + n % 10 = n := by
  omega

theorem thousands_lt (n : Nat) (hn : n ≤ 3999) : n / 1000 < 4 := by
  omega

/-- C1: for all m, n in 1..3999, `add_roman_numerals` applied to the canonical
numerals of m and n returns a string, and that string, read with the
subtractive rule, has the value m + n. -/
theorem add_roman_numerals_canonical_value (m n : Nat) (hm : 1 ≤ m ∧ m ≤ 3999)
    (hn : 1 ≤ n ∧ n ≤ 3999) :
    ∃ r, add_roman_numerals (canonical m) (canonical n) = some r ∧
      roman_value r = (m : Int) + (n : Int) := by
  have h := add_canonical_digits_value (m / 1000) (m / 100 % 10) (m / 10 % 10) (m % 10)
    (n / 1000) (n / 100 % 10) (n / 10 % 10) (n % 10)
    (thousands_lt m hm.2) (Nat.mod_lt _ (by decide)) (Nat.mod_lt _ (by decide))
    (Nat.mod_lt _ (by decide))
    (thousands_lt n hn.2) (Nat.mod_lt _ (by decide)) (Nat.mod_lt _ (by decide))
    (Nat.mod_lt _ (by decide))
    (by rw [digits_eq]; exact hm.1) (by rw [digits_eq]; exact hn.1)
  rw [digits_eq, digits_eq] at h
  exact h

/-- C1 at 1994 and 29. -/
theorem add_roman_numerals_canonical_value_witness :
    (1 ≤ 1994 ∧ 1994 ≤ 3999) ∧ (1 ≤ 29 ∧ 29 ≤ 3999) ∧
      ∃ r, add_roman_numerals (canonical 1994) (canonical 29) = some r ∧
        roman_value r = (1994 : Int) + (29 : Int) :=
  ⟨by decide, by decide,
    add_roman_numerals_canonical_value 1994 29 (by decide) (by decide)⟩

/-- C2: the four end-to-end examples: III + II = V, IV + I = V,
XLII + VIII = L and MMXXIII + I = MMXXIV. -/
theorem add_roman_numerals_examples :
    add_roman_numerals "III".toList "II".toList = some "V".toList ∧
    add_roman_numerals "IV".toList "I".toList = some "V".toList ∧
    add_roman_numerals "XLII".toList "VIII".toList = some "L".toList ∧
    add_roman_numerals "MMXXIII".toList "I".toList = some "MMXXIV".toList := by
  decide

theorem replace_substring_ne_nil (s p r : List Char) (hs : s ≠ []) (hr : r ≠ []) :
    replace_substring s p r ≠ [] := by
  by_cases hp : p = []
  · simpa [replace_substring, hp] using hs
  · rcases replace_substring_cases p r s hp with h | ⟨t, -, h⟩ | ⟨c, rest, -, h⟩
    · exact absurd h hs
    · rw [h]; simp [hr]
    · rw [h]; simp

theorem write_additively_loop_ne_nil (rules : List (List Char × List Char))
    (h : ∀ rule ∈ rules, rule.2 ≠ []) (s : List Char) (hs : s ≠ []) :
    write_additively_loop rules s ≠ [] := by
  induction rules generalizing s with
  | nil => exact hs
  | cons rule rules ih =>
    obtain ⟨p, r⟩ := rule
    rw [write_additively_loop]
    exact ih (fun rule hr => h rule (List.mem_cons_of_mem _ hr)) _
      (replace_substring_ne_nil s p r hs (h (p, r) (by simp)))

theorem write_additively_ne_nil (s : List Char) (hs : s ≠ []) : write_additively s ≠ [] :=
  write_additively_loop_ne_nil _ (by decide) s hs

theorem add_roman_numerals_none (a b : List Char)
    (hcap : (write_additively a).length + (write_additively b).length > MAX_NUMERAL_LENGTH) :
    add_roman_numerals a b = none := by
  unfold add_roman_numerals
  exact if_pos hcap

/-- C3: for non-empty strings a, b over the seven symbols,
`add_roman_numerals` fails exactly when the lengths of the two normalized
summands add up to more than `MAX_NUMERAL_LENGTH`; a combined normalized length
of exactly `MAX_NUMERAL_LENGTH` yields a string. -/
theorem add_roman_numerals_fails_iff (a b : List Char) (ha : a ≠ []) (hb : b ≠ [])
    (_hsa : over_symbols a) (_hsb : over_symbols b) :
    (add_roman_numerals a b = none ↔
      (write_additively a).length + (write_additively b).length > MAX_NUMERAL_LENGTH) ∧
    ((write_additively a).length + (write_additively b).length = MAX_NUMERAL_LENGTH →
      ∃ r, add_roman_numerals a b = some r) := by
  have ha' := write_additively_ne_nil a ha
  have hb' := write_additively_ne_nil b hb
  refine ⟨⟨?_, add_roman_numerals_none a b⟩, ?_⟩
  · intro h
    by_contra hcap
    rw [add_roman_numerals_eq a b ha' hb' (Nat.le_of_not_lt hcap)] at h
    exact Option.noConfusion h
  · intro h
    exact ⟨_, add_roman_numerals_eq a b ha' hb' (Nat.le_of_eq h)⟩

/-- C3 at IV and I. -/
theorem add_roman_numerals_fails_iff_witness :
    (add_roman_numerals "IV".toList "I".toList = none ↔
      (write_additively "IV".toList).length + (write_additively "I".toList).length
        > MAX_NUMERAL_LENGTH) ∧
    ((write_additively "IV".toList).length + (write_additively "I".toList).length
        = MAX_NUMERAL_LENGTH →
      ∃ r, add_roman_numerals "IV".toList "I".toList = some r) :=
  add_roman_numerals_fails_iff "IV".toList "I".toList (by decide) (by decide) (by decide)
    (by decide)

/-! ## Additive form and face values -/

theorem le_of_mem_append (f : Char → Nat) (v : Nat) (s t : List Char)
    (hs : ∀ y ∈ s, f y ≤ v) (ht : ∀ y ∈ t, f y ≤ v) : ∀ y ∈ s ++ t, f y ≤ v := by
  intro y hy
  rcases List.mem_append.mp hy with hy | hy
  · exact hs y hy
  · exact ht y hy

theorem le_of_mem_replicate (f : Char → Nat) (v : Nat) (c : Char) (k : Nat) (h : f c ≤ v) :
    ∀ y ∈ List.replicate k c, f y ≤ v := by
  intro y hy
  rw [(List.mem_replicate.mp hy).2]
  exact h

theorem pairwise_replicate_append (c : Char) (k : Nat) (rest : List Char)
    (hc : ∀ y ∈ rest, rank y ≤ rank c)
    (hrest : List.Pairwise (fun x y => ¬ rank x < rank y) rest) :
    List.Pairwise (fun x y => ¬ rank x < rank y) (List.replicate k c ++ rest) := by
  rw [List.pairwise_append]
  refine ⟨List.pairwise_replicate.2 (Or.inr (Nat.lt_irrefl _)), hrest, ?_⟩
  intro a ha b hb
  rw [(List.mem_replicate.mp ha).2]
  exact Nat.not_lt.mpr (hc b hb)

theorem no_digraph_iff_chain (s : List Char) :
    no_digraph s = true ↔ List.Chain' (fun x y => ¬ rank x < rank y) s := by
  induction s with
  | nil => simp [no_digraph]
  | cons x rest ih =>
    cases rest with
    | nil => simp [no_digraph]
    | cons y rest =>
      rw [no_digraph, List.chain'_cons, ← ih]
      simp

theorem no_digraph_descending (m d c l x v i : Nat) :
    no_digraph (descending_numeral m d c l x v i) = true := by
  rw [no_digraph_iff_chain]
  apply List.Pairwise.chain'
  have hI : ∀ y ∈ List.replicate i 'I', rank y ≤ 1 :=
    le_of_mem_replicate rank 1 'I' i (by decide)
  have hV := le_of_mem_append rank 2 _ _ (le_of_mem_replicate rank 2 'V' v (by decide))
    (fun y hy => Nat.le_trans (hI y hy) (by decide))
  have hX := le_of_mem_append rank 3 _ _ (le_of_mem_replicate rank 3 'X' x (by decide))
    (fun y hy => Nat.le_trans (hV y hy) (by decide))
  have hL := le_of_mem_append rank 4 _ _ (le_of_mem_replicate rank 4 'L' l (by decide))
    (fun y hy => Nat.le_trans (hX y hy) (by decide))
  have hC := le_of_mem_append rank 5 _ _ (le_of_mem_replicate rank 5 'C' c (by decide))
    (fun y hy => Nat.le_trans (hL y hy) (by decide))
  have hD := le_of_mem_append rank 6 _ _ (le_of_mem_replicate rank 6 'D' d (by decide))
    (fun y hy => Nat.le_trans (hC y hy) (by decide))
  have pI : List.Pairwise (fun x y => ¬ rank x < rank y) (List.replicate i 'I') :=
    List.pairwise_replicate.2 (Or.inr (Nat.lt_irrefl _))
  exact pairwise_replicate_append 'M' m _ hD
    (pairwise_replicate_append 'D' d _ hC
      (pairwise_replicate_append 'C' c _ hL
        (pairwise_replicate_append 'L' l _ hX
          (pairwise_replicate_append 'X' x _ hV
            (pairwise_replicate_append 'V' v _ hI pI)))))

theorem additive_value_append (s t : List Char) :
    additive_value (s ++ t) = additive_value s + additive_value t := by
  simp [additive_value]

theorem additive_value_replicate (k : Nat) (c : Char) :
    additive_value (List.replicate k c) = k * symbol_value c := by
  simp [additive_value]

theorem additive_value_descending (m d c l x v i : Nat) :
    additive_value (descending_numeral m d c l x v i) =
      1000 * m + 500 * d + 100 * c + 50 * l + 10 * x + 5 * v + i := by
  have e1 : symbol_value 'M' = 1000 := by decide
  have e2 : symbol_value 'D' = 500 := by decide
  have e3 : symbol_value 'C' = 100 := by decide
  have e4 : symbol_value 'L' = 50 := by decide
  have e5 : symbol_value 'X' = 10 := by decide
  have e6 : symbol_value 'V' = 5 := by decide
  have e7 : symbol_value 'I' = 1 := by decide
  simp only [descending_numeral, additive_value_append, additive_value_replicate, e1, e2, e3, e4,
    e5, e6, e7]
  ring

theorem digits_value (n : Nat) :
    1000 * (n / 1000) + 500 * (n / 100 % 10 / 5) + 100 * (n / 100 % 10 % 5)
      + 50 * (n / 10 % 10 / 5) + 10 * (n / 10 % 10 % 5) + 5 * (n % 10 / 5) + n % 10 % 5 = n := by
  omega

/-- C4: for n in 1..3999 the normalizer applied to the canonical numeral of n
gives a string with no subtractive digraph whose face values sum to n. -/
theorem write_additively_canonical_additive (n : Nat) (_hn : 1 ≤ n ∧ n ≤ 3999) :
    no_digraph (write_additively (canonical n)) = true ∧
      additive_value (write_additively (canonical n)) = n := by
  rw [write_additively_canonical]
  exact ⟨no_digraph_descending _ _ _ _ _ _ _,
    (additive_value_descending _ _ _ _ _ _ _).trans (digits_value n)⟩

/-- C4 at 1994. -/
theorem write_additively_canonical_additive_witness :
    (1 ≤ 1994 ∧ 1994 ≤ 3999) ∧ no_digraph (write_additively (canonical 1994)) = true ∧
      additive_value (write_additively (canonical 1994)) = 1994 :=
  ⟨by decide, write_additively_canonical_additive 1994 (by decide)⟩

theorem not_infix_of_no_digraph (s p : List Char) (hs : no_digraph s = true)
    (hp : is_digraph p = true) : ¬ p <:+: s := by
  intro hin
  have hc : List.Chain' (fun x y => ¬ rank x < rank y) p :=
    List.Chain'.infix ((no_digraph_iff_chain s).mp hs) hin
  match p, hp, hc with
  | [x, y], hp, hc =>
    have hlt : rank x < rank y := by simpa [is_digraph] using hp
    have hnl : ¬ rank x < rank y := by simpa using hc
    exact hnl hlt

theorem write_additively_loop_of_additive (rules : List (List Char × List Char))
    (h : ∀ rule ∈ rules, is_digraph rule.1 = true) (s : List Char)
    (hs : no_digraph s = true) :
    write_additively_loop rules s = s := by
  induction rules with
  | nil => rfl
  | cons rule rules ih =>
    obtain ⟨p, r⟩ := rule
    rw [write_additively_loop,
      replace_substring_of_absent s p r (not_infix_of_no_digraph s p hs (h (p, r) (by simp)))]
    exact ih (fun rule hr => h rule (List.mem_cons_of_mem _ hr))

/-- C5: the normalizer leaves a string over the seven symbols that is already in
additive form as it is. -/
theorem write_additively_of_additive (a : List Char) (_hs : over_symbols a)
    (hadd : no_digraph a = true) : write_additively a = a :=
  write_additively_loop_of_additive _ (by decide) a hadd

/-- C5 at MDCLXVIIII. -/
theorem write_additively_of_additive_witness :
    over_symbols "MDCLXVIIII".toList ∧ no_digraph "MDCLXVIIII".toList = true ∧
      write_additively "MDCLXVIIII".toList = "MDCLXVIIII".toList :=
  ⟨by decide, by decide,
    write_additively_of_additive "MDCLXVIIII".toList (by decide) (by decide)⟩

theorem get_key_eq_iff (x c : Char) (hx : x ∈ Roman_Numeral_Char) (hc : c ∈ Roman_Numeral_Char) :
    get_key x = get_key c ↔ x = c := by
  simp only [Roman_Numeral_Char, List.mem_cons, List.mem_singleton, List.not_mem_nil,
    or_false] at hx hc
  rcases hx with rfl | rfl | rfl | rfl | rfl | rfl | rfl <;>
    rcases hc with rfl | rfl | rfl | rfl | rfl | rfl | rfl <;> decide

theorem key_count_eq_count (c : Char) (s : List Char) (hc : c ∈ Roman_Numeral_Char)
    (hs : over_symbols s) : key_count (get_key c) s = s.count c := by
  induction s with
  | nil => simp [key_count]
  | cons x rest ih =>
    have hx : x ∈ Roman_Numeral_Char := hs x (by simp)
    have hrest : over_symbols rest := fun y hy => hs y (List.mem_cons_of_mem _ hy)
    have ih' := ih hrest
    simp only [key_count] at ih' ⊢
    rw [List.countP_cons, List.count_cons, ih']
    by_cases e : x = c
    · simp [e]
    · have e' : ¬ get_key x = get_key c := fun h => e ((get_key_eq_iff x c hx hc).mp h)
      simp [e, e']

theorem count_descending (m d c l x v i : Nat) :
    (descending_numeral m d c l x v i).count 'M' = m ∧
    (descending_numeral m d c l x v i).count 'D' = d ∧
    (descending_numeral m d c l x v i).count 'C' = c ∧
    (descending_numeral m d c l x v i).count 'L' = l ∧
    (descending_numeral m d c l x v i).count 'X' = x ∧
    (descending_numeral m d c l x v i).count 'V' = v ∧
    (descending_numeral m d c l x v i).count 'I' = i := by
  simp [descending_numeral, List.count_append, List.count_replicate]

theorem mem_descending (m d c l x v i : Nat) (y : Char)
    (hy : y ∈ descending_numeral m d c l x v i) : y ∈ Roman_Numeral_Char := by
  simp only [descending_numeral, List.mem_append, List.mem_replicate] at hy
  rcases hy with ⟨-, rfl⟩ | ⟨-, rfl⟩ | ⟨-, rfl⟩ | ⟨-, rfl⟩ | ⟨-, rfl⟩ | ⟨-, rfl⟩ | ⟨-, rfl⟩ <;>
    decide

theorem count_merged (s : List Char) (hs : over_symbols s) (c : Char) :
    (merged s).count c = s.count c := by
  by_cases hc : c ∈ Roman_Numeral_Char
  · obtain ⟨c6, c5, c4, c3, c2, c1, c0⟩ := count_descending (key_count RN_M s)
      (key_count RN_D s) (key_count RN_C s) (key_count RN_L s) (key_count RN_X s)
      (key_count RN_V s) (key_count RN_I s)
    have k := fun c hc => key_count_eq_count c s hc hs
    have k6 := k 'M' (by decide)
    have k5 := k 'D' (by decide)
    have k4 := k 'C' (by decide)
    have k3 := k 'L' (by decide)
    have k2 := k 'X' (by decide)
    have k1 := k 'V' (by decide)
    have k0 := k 'I' (by decide)
    have g : get_key 'M' = RN_M ∧ get_key 'D' = RN_D ∧ get_key 'C' = RN_C ∧
        get_key 'L' = RN_L ∧ get_key 'X' = RN_X ∧ get_key 'V' = RN_V ∧ get_key 'I' = RN_I := by
      decide
    obtain ⟨g6, g5, g4, g3, g2, g1, g0⟩ := g
    rw [g6] at k6
    rw [g5] at k5
    rw [g4] at k4
    rw [g3] at k3
    rw [g2] at k2
    rw [g1] at k1
    rw [g0] at k0
    simp only [Roman_Numeral_Char, List.mem_cons, List.mem_singleton, List.not_mem_nil,
      or_false] at hc
    rw [merged]
    rcases hc with rfl | rfl | rfl | rfl | rfl | rfl | rfl
    · rw [c0, k0]
    · rw [c1, k1]
    · rw [c2, k2]
    · rw [c3, k3]
    · rw [c4, k4]
    · rw [c5, k5]
    · rw [c6, k6]
  · have h1 : c ∉ merged s := fun h => hc (mem_descending _ _ _ _ _ _ _ c h)
    have h2 : c ∉ s := fun h => hc (hs c h)
    rw [List.count_eq_zero_of_not_mem h1, List.count_eq_zero_of_not_mem h2]

/-- C6: for non-empty strings a, b over the seven symbols the merger, given the
buffer length `length a + length b`, returns a string of exactly that length in
which every symbol occurs as often as in a and b together: a permutation of
`a ++ b`. -/
theorem add_additive_roman_numerals_permutation (a b : List Char) (ha : a ≠ []) (hb : b ≠ [])
    (hsa : over_symbols a) (hsb : over_symbols b) :
    ∃ r, add_additive_roman_numerals a b (a.length + b.length) = some r ∧
      r.length = a.length + b.length ∧
      (∀ c ∈ Roman_Numeral_Char, r.count c = a.count c + b.count c) ∧
      List.Perm r (a ++ b) := by
  have hs : over_symbols (a ++ b) := by
    intro c hc
    rcases List.mem_append.mp hc with h | h
    · exact hsa c h
    · exact hsb c h
  refine ⟨merged (a ++ b), ?_, ?_, ?_, ?_⟩
  · rw [add_additive_eq a b _ ha hb, if_pos (Nat.le_refl _)]
  · rw [length_merged, List.length_append]
  · intro c _
    rw [count_merged _ hs, List.count_append]
  · rw [List.perm_iff_count]
    intro c
    exact count_merged _ hs c

/-- C6 at XVI and CII. -/
theorem add_additive_roman_numerals_permutation_witness :
    ∃ r, add_additive_roman_numerals "XVI".toList "CII".toList
        ("XVI".toList.length + "CII".toList.length) = some r ∧
      r.length = "XVI".toList.length + "CII".toList.length ∧
      (∀ c ∈ Roman_Numeral_Char, r.count c = "XVI".toList.count c + "CII".toList.count c) ∧
      List.Perm r ("XVI".toList ++ "CII".toList) :=
  add_additive_roman_numerals_permutation "XVI".toList "CII".toList (by decide) (by decide)
    (by decide) (by decide)

theorem additive_value_replace_substring (p r : List Char)
    (hv : additive_value p = additive_value r) (s : List Char) :
    additive_value (replace_substring s p r) = additive_value s := by
  by_cases hp : p = []
  · simp [replace_substring, hp]
  · obtain ⟨n, hn⟩ : ∃ n, s.length = n := ⟨_, rfl⟩
    induction n using Nat.strong_induction_on generalizing s with
    | _ n ih =>
      rcases replace_substring_cases p r s hp with h | ⟨t, hs, h⟩ | ⟨c, rest, hs, h⟩
      · rw [h, replace_substring_nil]
      · have hlen : t.length < n := by
          rw [← hn, hs, List.length_append]
          have : 0 < p.length := List.length_pos.mpr hp
          omega
        rw [h, additive_value_append, ih t.length hlen t rfl, ← hv, ← additive_value_append,
          ← hs]
      · have hlen : rest.length < n := by
          rw [← hn, hs, List.length_cons]
          omega
        rw [h, hs]
        have := ih rest.length hlen rest rfl
        simp only [additive_value, List.map_cons, List.sum_cons] at this ⊢
        rw [this]

theorem additive_value_bundle_loop (rules : List (List Char × List Char))
    (h : ∀ rule ∈ rules, additive_value rule.1 = additive_value rule.2) (s : List Char) :
    additive_value (bundle_loop rules s) = additive_value s := by
  induction rules generalizing s with
  | nil => rfl
  | cons rule rules ih =>
    obtain ⟨p, r⟩ := rule
    rw [bundle_loop, ih (fun rule hr => h rule (List.mem_cons_of_mem _ hr)),
      replace_substring_and_realloc, additive_value_replace_substring p r (h (p, r) (by simp))]

/-- C7: the bundler preserves the additive value: the face values of the
symbols of `bundle_roman_symbols s` sum to those of `s`. -/
theorem bundle_roman_symbols_value (s : List Char) (_hs : over_symbols s) :
    additive_value (bundle_roman_symbols s) = additive_value s :=
  additive_value_bundle_loop _ (by decide) s

/-- C7 at XXXXVVIIIIIIII. -/
theorem bundle_roman_symbols_value_witness :
    over_symbols "XXXXVVIIIIIIII".toList ∧
      additive_value (bundle_roman_symbols "XXXXVVIIIIIIII".toList) =
        additive_value "XXXXVVIIIIIIII".toList :=
  ⟨by decide, bundle_roman_symbols_value "XXXXVVIIIIIIII".toList (by decide)⟩

/-- C8 as stated fails: `add_roman_numerals` on III and I does not return
IIII. -/
theorem add_III_I_not_IIII :
    add_roman_numerals "III".toList "I".toList ≠ some "IIII".toList := by
  decide

/-- C8, amended: `add_roman_numerals` on III and I returns IV, the four I
being rewritten by the last stage. -/
theorem add_III_I_eq_IV :
    add_roman_numerals "III".toList "I".toList = some "IV".toList := by
  decide

/-- C9: `subtract_roman_numerals` returns the failure value on every call. -/
theorem subtract_roman_numerals_fails (operands : Unit) :
    subtract_roman_numerals operands = none := rfl

theorem merged_comm (s t : List Char) : merged (s ++ t) = merged (t ++ s) := by
  simp only [merged, key_count_append, Nat.add_comm]

/-- C10: for non-empty strings a, b over the seven symbols,
`add_roman_numerals a b` and `add_roman_numerals b a` either both fail, the
capacity being exceeded, or both return the same string. -/
theorem add_roman_numerals_comm (a b : List Char) (ha : a ≠ []) (hb : b ≠ [])
    (_hsa : over_symbols a) (_hsb : over_symbols b) :
    (add_roman_numerals a b = none ∧ add_roman_numerals b a = none ∧
        (write_additively a).length + (write_additively b).length > MAX_NUMERAL_LENGTH) ∨
      ∃ r, add_roman_numerals a b = some r ∧ add_roman_numerals b a = some r := by
  have ha' := write_additively_ne_nil a ha
  have hb' := write_additively_ne_nil b hb
  by_cases hcap : (write_additively a).length + (write_additively b).length > MAX_NUMERAL_LENGTH
  · left
    refine ⟨add_roman_numerals_none a b hcap, add_roman_numerals_none b a ?_, hcap⟩
    rw [Nat.add_comm]
    exact hcap
  · right
    have hle := Nat.le_of_not_lt hcap
    have hle' : (write_additively b).length + (write_additively a).length ≤ MAX_NUMERAL_LENGTH := by
      rw [Nat.add_comm]
      exact hle
    refine ⟨_, add_roman_numerals_eq a b ha' hb' hle, ?_⟩
    rw [add_roman_numerals_eq b a hb' ha' hle', merged_comm]

/-- C10 at XIV and MCM. -/
theorem add_roman_numerals_comm_witness :
    (add_roman_numerals "XIV".toList "MCM".toList = none ∧
        add_roman_numerals "MCM".toList "XIV".toList = none ∧
        (write_additively "XIV".toList).length + (write_additively "MCM".toList).length
          > MAX_NUMERAL_LENGTH) ∨
      ∃ r, add_roman_numerals "XIV".toList "MCM".toList = some r ∧
        add_roman_numerals "MCM".toList "XIV".toList = some r :=
  add_roman_numerals_comm "XIV".toList "MCM".toList (by decide) (by decide) (by decide)
    (by decide)

set_option maxRecDepth 10000 in
/-- The two notions of the statements agree: the canonical numeral of a number
below 4000 reads as that number. -/
theorem roman_value_canonical_digits :
    ∀ th, th < 4 → ∀ h, h < 10 → ∀ t, t < 10 → ∀ u, u < 10 →
      roman_value (canonical_digits th h t u) = ((1000 * th + 100 * h + 10 * t + u : Nat) : Int) := by
  decide!

/-! ## The exact result on canonical numerals -/

theorem carry_digit (a b k : Nat) :
    (a % 5 + b % 5 + k) % 5 = (a + b + k) % 10 % 5 ∧
    (a / 5 + b / 5 + (a % 5 + b % 5 + k) / 5) % 2 = (a + b + k) % 10 / 5 ∧
    (a / 5 + b / 5 + (a % 5 + b % 5 + k) / 5) / 2 = (a + b + k) / 10 := by
  omega

theorem carry_units (a b : Nat) :
    (a % 5 + b % 5) % 5 = (a + b) % 10 % 5 ∧
    (a / 5 + b / 5 + (a % 5 + b % 5) / 5) % 2 = (a + b) % 10 / 5 ∧
    (a / 5 + b / 5 + (a % 5 + b % 5) / 5) / 2 = (a + b) / 10 := by
  omega

theorem sum_digits (T H S U : Nat) :
    (1000 * T + 100 * H + 10 * S + U) % 10 = U % 10 ∧
    (1000 * T + 100 * H + 10 * S + U) / 10 % 10 = (S + U / 10) % 10 ∧
    (1000 * T + 100 * H + 10 * S + U) / 100 % 10 = (H + (S + U / 10) / 10) % 10 ∧
    (1000 * T + 100 * H + 10 * S + U) / 1000 = T + (H + (S + U / 10) / 10) / 10 := by
  omega

theorem sum_regroup (th1 h1 t1 u1 th2 h2 t2 u2 : Nat) :
    (1000 * th1 + 100 * h1 + 10 * t1 + u1) + (1000 * th2 + 100 * h2 + 10 * t2 + u2) =
      1000 * (th1 + th2) + 100 * (h1 + h2) + 10 * (t1 + t2) + (u1 + u2) := by
  omega

theorem carried_counts (th1 h1 t1 u1 th2 h2 t2 u2 N : Nat)
    (hN : N = (1000 * th1 + 100 * h1 + 10 * t1 + u1) + (1000 * th2 + 100 * h2 + 10 * t2 + u2)) :
    th1 + th2 + (h1 / 5 + h2 / 5 + (h1 % 5 + h2 % 5 + (t1 / 5 + t2 / 5 + (t1 % 5 + t2 % 5 +
        (u1 / 5 + u2 / 5 + (u1 % 5 + u2 % 5) / 5) / 2) / 5) / 2) / 5) / 2 = N / 1000 ∧
    (h1 / 5 + h2 / 5 + (h1 % 5 + h2 % 5 + (t1 / 5 + t2 / 5 + (t1 % 5 + t2 % 5 +
        (u1 / 5 + u2 / 5 + (u1 % 5 + u2 % 5) / 5) / 2) / 5) / 2) / 5) % 2 = N / 100 % 10 / 5 ∧
    (h1 % 5 + h2 % 5 + (t1 / 5 + t2 / 5 + (t1 % 5 + t2 % 5 +
        (u1 / 5 + u2 / 5 + (u1 % 5 + u2 % 5) / 5) / 2) / 5) / 2) % 5 = N / 100 % 10 % 5 ∧
    (t1 / 5 + t2 / 5 + (t1 % 5 + t2 % 5 +
        (u1 / 5 + u2 / 5 + (u1 % 5 + u2 % 5) / 5) / 2) / 5) % 2 = N / 10 % 10 / 5 ∧
    (t1 % 5 + t2 % 5 + (u1 / 5 + u2 / 5 + (u1 % 5 + u2 % 5) / 5) / 2) % 5 = N / 10 % 10 % 5 ∧
    (u1 / 5 + u2 / 5 + (u1 % 5 + u2 % 5) / 5) % 2 = N % 10 / 5 ∧
    (u1 % 5 + u2 % 5) % 5 = N % 10 % 5 := by
  obtain ⟨a1, a2, a3⟩ := carry_units u1 u2
  obtain ⟨b1, b2, b3⟩ := carry_digit t1 t2 ((u1 + u2) / 10)
  obtain ⟨c1, c2, c3⟩ := carry_digit h1 h2 ((t1 + t2 + (u1 + u2) / 10) / 10)
  obtain ⟨d1, d2, d3, d4⟩ := sum_digits (th1 + th2) (h1 + h2) (t1 + t2) (u1 + u2)
  rw [hN, sum_regroup, d1, d2, d3, d4, a3, b3, c3]
  exact ⟨rfl, c2, c1, b2, b1, a2, a1⟩

theorem replicate_five_part (h : Nat) (c : Char) (hh : h < 10) :
    List.replicate (h / 5) c = if 5 ≤ h then [c] else [] := by
  interval_cases h <;> rfl

/-- The last stage on a bundled descending numeral. -/
theorem restore_descending (m d c l x v i : Nat) (hi : i < 5) :
    replace_substring_and_realloc (descending_numeral m d c l x v i) "IIII".toList "IV".toList =
      List.replicate m 'M' ++ (List.replicate d 'D' ++ (List.replicate c 'C' ++
        (List.replicate l 'L' ++ (List.replicate x 'X' ++ (List.replicate v 'V' ++
          (if i = 4 then ['I', 'V'] else List.replicate i 'I')))))) := by
  have hr := replace_run 'I' "IV".toList 4 (by decide)
    (List.replicate m 'M' ++ (List.replicate d 'D' ++ (List.replicate c 'C' ++
      (List.replicate l 'L' ++ (List.replicate x 'X' ++ List.replicate v 'V'))))) []
    (by simp [List.mem_append, List.mem_replicate]) (by simp) i
  have hp : "IIII".toList = List.replicate 4 'I' := rfl
  simp only [List.append_assoc, List.append_nil] at hr
  rw [replace_substring_and_realloc, descending_numeral, hp, hr]
  interval_cases i <;> rfl

theorem add_canonical_digits_eq (th1 h1 t1 u1 th2 h2 t2 u2 : Nat)
    (hth1 : th1 < 4) (hh1 : h1 < 10) (ht1 : t1 < 10) (hu1 : u1 < 10)
    (hth2 : th2 < 4) (hh2 : h2 < 10) (ht2 : t2 < 10) (hu2 : u2 < 10)
    (hpos1 : 1 ≤ 1000 * th1 + 100 * h1 + 10 * t1 + u1)
    (hpos2 : 1 ≤ 1000 * th2 + 100 * h2 + 10 * t2 + u2) :
    add_roman_numerals (canonical_digits th1 h1 t1 u1) (canonical_digits th2 h2 t2 u2) =
      some (carried_sum_numeral
        ((1000 * th1 + 100 * h1 + 10 * t1 + u1) + (1000 * th2 + 100 * h2 + 10 * t2 + u2))) := by
  have w1 := write_additively_canonical_digits th1 h1 t1 u1 hh1 ht1 hu1
  have w2 := write_additively_canonical_digits th2 h2 t2 u2 hh2 ht2 hu2
  have n1 := length_additive_digits th1 h1 t1 u1 hth1 hh1 ht1 hu1 hpos1
  have n2 := length_additive_digits th2 h2 t2 u2 hth2 hh2 ht2 hu2 hpos2
  rw [← w1] at n1
  rw [← w2] at n2
  have ha : write_additively (canonical_digits th1 h1 t1 u1) ≠ [] := by
    intro e
    rw [e] at n1
    simp at n1
  have hb : write_additively (canonical_digits th2 h2 t2 u2) ≠ [] := by
    intro e
    rw [e] at n2
    simp at n2
  have hcap : (write_additively (canonical_digits th1 h1 t1 u1)).length +
      (write_additively (canonical_digits th2 h2 t2 u2)).length ≤ MAX_NUMERAL_LENGTH := by
    rw [MAX_NUMERAL_LENGTH]
    omega
  rw [add_roman_numerals_eq _ _ ha hb hcap]
  obtain ⟨dh1, dh1', -⟩ := digit_split h1 hh1
  obtain ⟨dh2, dh2', -⟩ := digit_split h2 hh2
  obtain ⟨dt1, dt1', -⟩ := digit_split t1 ht1
  obtain ⟨dt2, dt2', -⟩ := digit_split t2 ht2
  obtain ⟨du1, du1', -⟩ := digit_split u1 hu1
  obtain ⟨du2, du2', -⟩ := digit_split u2 hu2
  have bi : u1 % 5 + u2 % 5 ≤ 9 := by omega
  have bx := carry_bound (t1 % 5 + t2 % 5) (u1 / 5 + u2 / 5) (u1 % 5 + u2 % 5)
    (Nat.add_le_add dt1' dt2') (Nat.add_le_add du1 du2) bi
  have bc := carry_bound (h1 % 5 + h2 % 5) (t1 / 5 + t2 / 5) _
    (Nat.add_le_add dh1' dh2') (Nat.add_le_add dt1 dt2) bx
  obtain ⟨k1, k2, k3, k4, k5, k6, k7⟩ := carried_counts th1 h1 t1 u1 th2 h2 t2 u2 _ rfl
  rw [w1, w2, merged_descending,
    bundle_descending _ _ _ _ _ _ _ (Nat.lt_succ_of_le bi) (Nat.lt_succ_of_le bx)
      (Nat.lt_succ_of_le bc),
    restore_descending _ _ _ _ _ _ _ (Nat.mod_lt _ (by decide)),
    k1, k2, k3, k4, k5, k6, k7, carried_sum_numeral,
    replicate_five_part _ 'D' (Nat.mod_lt _ (by decide)),
    replicate_five_part _ 'L' (Nat.mod_lt _ (by decide)),
    replicate_five_part _ 'V' (Nat.mod_lt _ (by decide))]


theorem infix_concat (x y z : Char) (s : List Char) (h : [x, y] <:+: s ++ [z]) :
    [x, y] <:+: s ∨ (y = z ∧ s.getLast? = some x) := by
  obtain ⟨u, w, e⟩ := h
  rcases List.eq_nil_or_concat w with rfl | ⟨w', z', rfl⟩
  · right
    have e' : (u ++ [x]) ++ [y] = s ++ [z] := by simpa using e
    have := List.append_inj' e' rfl
    refine ⟨by simpa using this.2, ?_⟩
    rw [← this.1]
    simp
  · left
    have e' : (u ++ [x, y] ++ w') ++ [z'] = s ++ [z] := by simpa using e
    have := List.append_inj' e' rfl
    exact ⟨u, w', this.1⟩

theorem carried_sum_numeral_eq (N : Nat) :
    carried_sum_numeral N =
      if N % 10 % 5 = 4 then
        descending_numeral (N / 1000) (N / 100 % 10 / 5) (N / 100 % 10 % 5) (N / 10 % 10 / 5)
          (N / 10 % 10 % 5) (N % 10 / 5) 1 ++ ['V']
      else
        descending_numeral (N / 1000) (N / 100 % 10 / 5) (N / 100 % 10 % 5) (N / 10 % 10 / 5)
          (N / 10 % 10 % 5) (N % 10 / 5) (N % 10 % 5) := by
  rw [carried_sum_numeral, ← replicate_five_part _ 'D' (Nat.mod_lt _ (by decide)),
    ← replicate_five_part _ 'L' (Nat.mod_lt _ (by decide)),
    ← replicate_five_part _ 'V' (Nat.mod_lt _ (by decide))]
  split
  · simp [descending_numeral]
  · rfl

theorem digraph_of_carried_sum_numeral (N : Nat) (x y : Char)
    (h : [x, y] <:+: carried_sum_numeral N) (hxy : rank x < rank y) : x = 'I' ∧ y = 'V' := by
  have hd : is_digraph [x, y] = true := by simp [is_digraph, hxy]
  rw [carried_sum_numeral_eq] at h
  split at h
  · rcases infix_concat x y 'V' _ h with h1 | ⟨h1, h2⟩
    · exact absurd h1 (not_infix_of_no_digraph _ _ (no_digraph_descending _ _ _ _ _ _ _) hd)
    · refine ⟨?_, h1⟩
      have e : descending_numeral (N / 1000) (N / 100 % 10 / 5) (N / 100 % 10 % 5)
          (N / 10 % 10 / 5) (N / 10 % 10 % 5) (N % 10 / 5) 1 =
          descending_numeral (N / 1000) (N / 100 % 10 / 5) (N / 100 % 10 % 5)
            (N / 10 % 10 / 5) (N / 10 % 10 % 5) (N % 10 / 5) 0 ++ ['I'] := by
        simp [descending_numeral]
      rw [e, List.getLast?_append] at h2
      simpa using h2.symm
  · exact absurd h (not_infix_of_no_digraph _ _ (no_digraph_descending _ _ _ _ _ _ _) hd)

/-- C11: for all m, n in 1..3999, `add_roman_numerals` applied to the canonical
numerals of m and n returns exactly the numeral of N = m + n made of N / 1000
M, then per digit a five-symbol if the digit is 5 or more and the digit mod 5
unit symbols, a final IIII being written IV; the only subtractive digraph in it
is IV; and 40 comes out as XXXX, 9 as VIV, 900 as DCCCC. -/
theorem add_roman_numerals_canonical_eq (m n : Nat) (hm : 1 ≤ m ∧ m ≤ 3999)
    (hn : 1 ≤ n ∧ n ≤ 3999) :
    add_roman_numerals (canonical m) (canonical n) = some (carried_sum_numeral (m + n)) ∧
      (∀ x y, [x, y] <:+: carried_sum_numeral (m + n) → rank x < rank y →
        x = 'I' ∧ y = 'V') ∧
      (add_roman_numerals (canonical 20) (canonical 20) = some "XXXX".toList ∧
        add_roman_numerals (canonical 4) (canonical 5) = some "VIV".toList ∧
        add_roman_numerals (canonical 400) (canonical 500) = some "DCCCC".toList) := by
  have h := add_canonical_digits_eq (m / 1000) (m / 100 % 10) (m / 10 % 10) (m % 10)
    (n / 1000) (n / 100 % 10) (n / 10 % 10) (n % 10)
    (thousands_lt m hm.2) (Nat.mod_lt _ (by decide)) (Nat.mod_lt _ (by decide))
    (Nat.mod_lt _ (by decide))
    (thousands_lt n hn.2) (Nat.mod_lt _ (by decide)) (Nat.mod_lt _ (by decide))
    (Nat.mod_lt _ (by decide))
    (by rw [digits_eq]; exact hm.1) (by rw [digits_eq]; exact hn.1)
  rw [digits_eq, digits_eq] at h
  exact ⟨h, fun x y => digraph_of_carried_sum_numeral (m + n) x y, by decide⟩

/-- C11 at 1994 and 2005. -/
theorem add_roman_numerals_canonical_eq_witness :
    (1 ≤ 1994 ∧ 1994 ≤ 3999) ∧ (1 ≤ 2005 ∧ 2005 ≤ 3999) ∧
      add_roman_numerals (canonical 1994) (canonical 2005) =
        some (carried_sum_numeral (1994 + 2005)) ∧
      (∀ x y, [x, y] <:+: carried_sum_numeral (1994 + 2005) → rank x < rank y →
        x = 'I' ∧ y = 'V') ∧
      (add_roman_numerals (canonical 20) (canonical 20) = some "XXXX".toList ∧
        add_roman_numerals (canonical 4) (canonical 5) = some "VIV".toList ∧
        add_roman_numerals (canonical 400) (canonical 500) = some "DCCCC".toList) :=
  ⟨by decide, by decide, add_roman_numerals_canonical_eq 1994 2005 (by decide) (by decide)⟩

/-- The numeral of the claim at some sums, the largest one included. -/
theorem carried_sum_numeral_examples :
    carried_sum_numeral 40 = "XXXX".toList ∧ carried_sum_numeral 9 = "VIV".toList ∧
      carried_sum_numeral 900 = "DCCCC".toList ∧
      carried_sum_numeral 3999 = "MMMDCCCCLXXXXVIV".toList ∧
      carried_sum_numeral 7998 = "MMMMMMMDCCCCLXXXXVIII".toList := by
  decide

/-! ## The normalizer on arbitrary strings -/

/-- The normalizer removes the digraph from every string of two symbols, the
21 digraphs of its table included. -/
theorem write_additively_two_symbols :
    ∀ x ∈ Roman_Numeral_Char, ∀ y ∈ Roman_Numeral_Char,
      no_digraph (write_additively [x, y]) = true := by
  decide

/-- The normalizer maps every digraph of its table, taken alone, to the
replacement of that entry. -/
theorem write_additively_entries :
    ∀ i, i < SF_LAST →
      write_additively (Subtractive_Form.getD i []) = Replacement_for_Subtractive.getD i [] := by
  decide

/-- C12 at the string IIX over the seven symbols: the normalizer returns
IVIIII, in which I is immediately followed by V.  The rule for IX writes VIIII
after the first I, and the rule for IV, the first of the table, has already run;
a second run of the normalizer removes the digraph.  The same happens on IXV. -/
theorem write_additively_leaves_digraph :
    over_symbols "IIX".toList ∧
      write_additively "IIX".toList = "IVIIII".toList ∧
      no_digraph (write_additively "IIX".toList) = false ∧
      "IV".toList <:+: write_additively "IIX".toList ∧
      write_additively (write_additively "IIX".toList) = "IIIIIIII".toList ∧
      write_additively "IXV".toList = "VIIIIV".toList := by
  refine ⟨by decide, by decide, by decide, ⟨[], ['I', 'I', 'I', 'I'], by decide⟩, by decide,
    by decide⟩

/-! ## Runs left by the bundler -/

theorem prefix_replace (d r0 : Char) (p : List Char) (hd : r0 ≠ d) (s : List Char) (i : Nat)
    (h : List.replicate i d <+: replace_substring s p [r0]) : List.replicate i d <+: s := by
  by_cases hp : p = []
  · simpa [replace_substring, hp] using h
  · obtain ⟨n, hn⟩ : ∃ n, s.length = n := ⟨_, rfl⟩
    induction n using Nat.strong_induction_on generalizing s i with
    | _ n ih =>
      cases i with
      | zero => exact List.nil_prefix
      | succ i =>
        rcases replace_substring_cases p [r0] s hp with e | ⟨t, hs, e⟩ | ⟨c, rest, hs, e⟩
        · rw [e, replace_substring_nil] at h
          rw [e]
          exact h
        · rw [e, List.replicate_succ, List.singleton_append, List.cons_prefix_cons] at h
          exact absurd h.1.symm hd
        · have hlen : rest.length < n := by
            rw [← hn, hs, List.length_cons]
            omega
          rw [e, List.replicate_succ, List.cons_prefix_cons] at h
          rw [hs, List.replicate_succ, List.cons_prefix_cons]
          exact ⟨h.1, ih rest.length hlen rest i h.2 rfl⟩

theorem infix_replace (d r0 : Char) (p : List Char) (hd : r0 ≠ d) (j : Nat) (hj : 0 < j)
    (s : List Char) (h : List.replicate j d <:+: replace_substring s p [r0]) :
    List.replicate j d <:+: s := by
  by_cases hp : p = []
  · simpa [replace_substring, hp] using h
  · obtain ⟨n, hn⟩ : ∃ n, s.length = n := ⟨_, rfl⟩
    induction n using Nat.strong_induction_on generalizing s with
    | _ n ih =>
      rcases replace_substring_cases p [r0] s hp with e | ⟨t, hs, e⟩ | ⟨c, rest, hs, e⟩
      · rw [e, replace_substring_nil] at h
        rw [e]
        exact h
      · have hlen : t.length < n := by
          rw [← hn, hs, List.length_append]
          have : 0 < p.length := List.length_pos.mpr hp
          omega
        rw [e, List.singleton_append, List.infix_cons_iff] at h
        rcases h with h | h
        · obtain ⟨k, rfl⟩ : ∃ k, j = k + 1 := ⟨j - 1, by omega⟩
          rw [List.replicate_succ, List.cons_prefix_cons] at h
          exact absurd h.1.symm hd
        · rw [hs]
          exact (ih t.length hlen t h rfl).trans (List.suffix_append p t).isInfix
      · have hlen : rest.length < n := by
          rw [← hn, hs, List.length_cons]
          omega
        have h' := h
        rw [e, List.infix_cons_iff] at h'
        rcases h' with h' | h'
        · rw [← e] at h'
          exact (prefix_replace d r0 p hd s j h').isInfix
        · rw [hs]
          exact (ih rest.length hlen rest h' rfl).trans (List.suffix_cons c rest).isInfix

theorem absent_after_rule (c r0 : Char) (k : Nat) (hk : 0 < k) (hc : r0 ≠ c) (s : List Char) :
    ¬ List.replicate k c <:+: replace_substring s (List.replicate k c) [r0] := by
  have hp : List.replicate k c ≠ [] := by
    intro e
    have := congrArg List.length e
    simp at this
    omega
  obtain ⟨n, hn⟩ : ∃ n, s.length = n := ⟨_, rfl⟩
  induction n using Nat.strong_induction_on generalizing s with
  | _ n ih =>
    intro h
    cases s with
    | nil =>
      rw [replace_substring_nil, List.infix_nil] at h
      exact hp h
    | cons x rest =>
      by_cases hm : List.replicate k c <+: x :: rest
      · obtain ⟨t, ht⟩ := hm
        have hlen : t.length < n := by
          rw [← hn, ← ht, List.length_append]
          have : 0 < (List.replicate k c).length := List.length_pos.mpr hp
          omega
        rw [← ht, replace_substring_match _ _ _ hp, List.singleton_append,
          List.infix_cons_iff] at h
        rcases h with h | h
        · obtain ⟨j, rfl⟩ : ∃ j, k = j + 1 := ⟨k - 1, by omega⟩
          rw [List.replicate_succ, List.cons_prefix_cons] at h
          exact hc h.1.symm
        · exact ih t.length hlen t rfl h
      · have hlen : rest.length < n := by
          rw [← hn, List.length_cons]
          omega
        have h' := h
        rw [replace_substring_step _ _ _ _ hm, List.infix_cons_iff] at h'
        rcases h' with h' | h'
        · rw [← replace_substring_step _ _ _ _ hm] at h'
          exact hm (prefix_replace c r0 _ hc _ k h')
        · exact ih rest.length hlen rest rfl h'

theorem absent_preserved (d r0 : Char) (p : List Char) (hd : r0 ≠ d) (j : Nat) (hj : 0 < j)
    (s : List Char) (h : ¬ List.replicate j d <:+: s) :
    ¬ List.replicate j d <:+: replace_substring s p [r0] :=
  fun hin => h (infix_replace d r0 p hd j hj s hin)

theorem absent_of_shorter (d : Char) (j k : Nat) (hjk : j ≤ k) (s : List Char)
    (h : ¬ List.replicate j d <:+: s) : ¬ List.replicate k d <:+: s := by
  intro hin
  apply h
  have e : List.replicate k d = List.replicate j d ++ List.replicate (k - j) d := by
    rw [← List.replicate_add]
    congr 1
    omega
  rw [e] at hin
  exact (List.prefix_append _ _).isInfix.trans hin


theorem bundle_loop_of_absent (rules : List (List Char × List Char)) (s : List Char)
    (h : ∀ rule ∈ rules, ¬ rule.1 <:+: s) : bundle_loop rules s = s := by
  induction rules with
  | nil => rfl
  | cons rule rules ih =>
    obtain ⟨p, r⟩ := rule
    rw [bundle_loop, replace_substring_and_realloc,
      replace_substring_of_absent s p r (h (p, r) (by simp))]
    exact ih (fun rule hr => h rule (List.mem_cons_of_mem _ hr))

/-- No bundle pattern is left in the output of the bundler. -/
theorem bundle_roman_symbols_no_pattern (s : List Char) :
    ∀ p ∈ bundles, ¬ p <:+: bundle_roman_symbols s := by
  rw [bundle_roman_symbols_eq]
  have hI5 := absent_after_rule 'I' 'V' 5 (by decide) (by decide)
    (replace_substring s (List.replicate 10 'I') ['X'])
  have hI5 := absent_preserved 'I' 'X' (List.replicate 2 'V') (by decide) 5 (by decide) _ hI5
  have hV2 := absent_after_rule 'V' 'X' 2 (by decide) (by decide)
    (replace_substring (replace_substring s (List.replicate 10 'I') ['X'])
      (List.replicate 5 'I') ['V'])
  have hI5 := absent_preserved 'I' 'C' (List.replicate 10 'X') (by decide) 5 (by decide) _ hI5
  have hV2 := absent_preserved 'V' 'C' (List.replicate 10 'X') (by decide) 2 (by decide) _ hV2
  have hX5 := absent_after_rule 'X' 'L' 5 (by decide) (by decide)
    (replace_substring (replace_substring (replace_substring
      (replace_substring s (List.replicate 10 'I') ['X'])
      (List.replicate 5 'I') ['V']) (List.replicate 2 'V') ['X']) (List.replicate 10 'X') ['C'])
  have hI5 := absent_preserved 'I' 'L' (List.replicate 5 'X') (by decide) 5 (by decide) _ hI5
  have hV2 := absent_preserved 'V' 'L' (List.replicate 5 'X') (by decide) 2 (by decide) _ hV2
  have hL2 := absent_after_rule 'L' 'C' 2 (by decide) (by decide)
    (replace_substring (replace_substring (replace_substring (replace_substring
      (replace_substring s (List.replicate 10 'I') ['X'])
      (List.replicate 5 'I') ['V']) (List.replicate 2 'V') ['X']) (List.replicate 10 'X') ['C'])
      (List.replicate 5 'X') ['L'])
  have hI5 := absent_preserved 'I' 'C' (List.replicate 2 'L') (by decide) 5 (by decide) _ hI5
  have hV2 := absent_preserved 'V' 'C' (List.replicate 2 'L') (by decide) 2 (by decide) _ hV2
  have hX5 := absent_preserved 'X' 'C' (List.replicate 2 'L') (by decide) 5 (by decide) _ hX5
  have hI5 := absent_preserved 'I' 'M' (List.replicate 10 'C') (by decide) 5 (by decide) _ hI5
  have hV2 := absent_preserved 'V' 'M' (List.replicate 10 'C') (by decide) 2 (by decide) _ hV2
  have hX5 := absent_preserved 'X' 'M' (List.replicate 10 'C') (by decide) 5 (by decide) _ hX5
  have hL2 := absent_preserved 'L' 'M' (List.replicate 10 'C') (by decide) 2 (by decide) _ hL2
  have hC5 := absent_after_rule 'C' 'D' 5 (by decide) (by decide)
    (replace_substring (replace_substring (replace_substring (replace_substring
      (replace_substring (replace_substring (replace_substring s
        (List.replicate 10 'I') ['X'])
      (List.replicate 5 'I') ['V']) (List.replicate 2 'V') ['X']) (List.replicate 10 'X') ['C'])
      (List.replicate 5 'X') ['L']) (List.replicate 2 'L') ['C']) (List.replicate 10 'C') ['M'])
  have hI5 := absent_preserved 'I' 'D' (List.replicate 5 'C') (by decide) 5 (by decide) _ hI5
  have hV2 := absent_preserved 'V' 'D' (List.replicate 5 'C') (by decide) 2 (by decide) _ hV2
  have hX5 := absent_preserved 'X' 'D' (List.replicate 5 'C') (by decide) 5 (by decide) _ hX5
  have hL2 := absent_preserved 'L' 'D' (List.replicate 5 'C') (by decide) 2 (by decide) _ hL2
  have hI5 := absent_preserved 'I' 'M' (List.replicate 2 'D') (by decide) 5 (by decide) _ hI5
  have hV2 := absent_preserved 'V' 'M' (List.replicate 2 'D') (by decide) 2 (by decide) _ hV2
  have hX5 := absent_preserved 'X' 'M' (List.replicate 2 'D') (by decide) 5 (by decide) _ hX5
  have hL2 := absent_preserved 'L' 'M' (List.replicate 2 'D') (by decide) 2 (by decide) _ hL2
  have hC5 := absent_preserved 'C' 'M' (List.replicate 2 'D') (by decide) 5 (by decide) _ hC5
  have hD2 := absent_after_rule 'D' 'M' 2 (by decide) (by decide)
    (replace_substring (replace_substring (replace_substring (replace_substring
      (replace_substring (replace_substring (replace_substring (replace_substring s
        (List.replicate 10 'I') ['X'])
      (List.replicate 5 'I') ['V']) (List.replicate 2 'V') ['X']) (List.replicate 10 'X') ['C'])
      (List.replicate 5 'X') ['L']) (List.replicate 2 'L') ['C']) (List.replicate 10 'C') ['M'])
      (List.replicate 5 'C') ['D'])
  have hI10 := absent_of_shorter 'I' 5 10 (by decide) _ hI5
  have hX10 := absent_of_shorter 'X' 5 10 (by decide) _ hX5
  have hC10 := absent_of_shorter 'C' 5 10 (by decide) _ hC5
  intro p hp
  simp only [bundles, List.mem_cons, List.mem_singleton, List.not_mem_nil, or_false] at hp
  rcases hp with rfl | rfl | rfl | rfl | rfl | rfl | rfl | rfl | rfl
  · exact hI10
  · exact hI5
  · exact hV2
  · exact hX10
  · exact hX5
  · exact hL2
  · exact hC10
  · exact hC5
  · exact hD2

/-- C13: for every string s over the seven symbols, none of the nine bundle
patterns is a contiguous substring of `bundle_roman_symbols s`; hence the
bundler applied again changes nothing, and so does any further number of
passes. -/
theorem bundle_roman_symbols_misses_no_run (s : List Char) (_hs : over_symbols s) :
    (∀ p ∈ bundles, ¬ p <:+: bundle_roman_symbols s) ∧
      bundle_roman_symbols (bundle_roman_symbols s) = bundle_roman_symbols s ∧
      ∀ n, bundle_roman_symbols^[n + 1] s = bundle_roman_symbols s := by
  have h1 := bundle_roman_symbols_no_pattern s
  have h2 : bundle_roman_symbols (bundle_roman_symbols s) = bundle_roman_symbols s := by
    apply bundle_loop_of_absent
    intro rule hr
    exact h1 rule.1 (List.of_mem_zip hr).1
  refine ⟨h1, h2, ?_⟩
  intro n
  induction n with
  | zero => rfl
  | succ n ih => rw [Function.iterate_succ_apply', ih, h2]

/-- C13 at XXXXVIIIIIIIIII. -/
theorem bundle_roman_symbols_misses_no_run_witness :
    over_symbols "XXXXVIIIIIIIIII".toList ∧
      (∀ p ∈ bundles, ¬ p <:+: bundle_roman_symbols "XXXXVIIIIIIIIII".toList) ∧
      bundle_roman_symbols (bundle_roman_symbols "XXXXVIIIIIIIIII".toList) =
        bundle_roman_symbols "XXXXVIIIIIIIIII".toList ∧
      ∀ n, bundle_roman_symbols^[n + 1] "XXXXVIIIIIIIIII".toList =
        bundle_roman_symbols "XXXXVIIIIIIIIII".toList :=
  ⟨by decide, bundle_roman_symbols_misses_no_run "XXXXVIIIIIIIIII".toList (by decide)⟩

/-- C14: the bundler can under-bundle: the merger applied to XXXXVIIIII and IIIII
gives the descending additive numeral XXXXVIIIIIIIIII, which the bundler turns
into XXXXVX; that holds five X in total, enough for a further carry, and is not
LV, the fully carried numeral of the same value 55. -/
theorem bundle_roman_symbols_under_bundles :
    ∃ s, over_symbols s ∧ no_digraph s = true ∧
      add_additive_roman_numerals "XXXXVIIIII".toList "IIIII".toList
        ("XXXXVIIIII".toList.length + "IIIII".toList.length) = some s ∧
      bundle_roman_symbols s = "XXXXVX".toList ∧
      holds_carry (bundle_roman_symbols s) = true ∧
      5 ≤ (bundle_roman_symbols s).count 'X' ∧
      additive_value (bundle_roman_symbols s) = additive_value "LV".toList ∧
      bundle_roman_symbols s ≠ "LV".toList :=
  ⟨"XXXXVIIIIIIIIII".toList, by decide, by decide, by decide, by decide, by decide, by decide,
    by decide, by decide⟩

/-! ## The order of the merged numeral -/

theorem merged_eq_counts (s : List Char) (hs : over_symbols s) :
    merged s = descending_numeral (s.count 'M') (s.count 'D') (s.count 'C') (s.count 'L')
      (s.count 'X') (s.count 'V') (s.count 'I') := by
  have k := fun c hc => key_count_eq_count c s hc hs
  have k6 := k 'M' (by decide)
  have k5 := k 'D' (by decide)
  have k4 := k 'C' (by decide)
  have k3 := k 'L' (by decide)
  have k2 := k 'X' (by decide)
  have k1 := k 'V' (by decide)
  have k0 := k 'I' (by decide)
  have g : get_key 'M' = RN_M ∧ get_key 'D' = RN_D ∧ get_key 'C' = RN_C ∧
      get_key 'L' = RN_L ∧ get_key 'X' = RN_X ∧ get_key 'V' = RN_V ∧ get_key 'I' = RN_I := by
    decide
  obtain ⟨g6, g5, g4, g3, g2, g1, g0⟩ := g
  rw [g6] at k6
  rw [g5] at k5
  rw [g4] at k4
  rw [g3] at k3
  rw [g2] at k2
  rw [g1] at k1
  rw [g0] at k0
  rw [merged, k6, k5, k4, k3, k2, k1, k0]

/-- C15: for non-empty strings a, b over the seven symbols the merger returns
count(M) M, then count(D) D, then the C, L, X, V and finally count(I) I, the
counts being taken over a and b together; no symbol in it is followed by a
higher-ranked one. -/
theorem add_additive_roman_numerals_descending (a b : List Char) (ha : a ≠ []) (hb : b ≠ [])
    (hsa : over_symbols a) (hsb : over_symbols b) :
    ∃ r, add_additive_roman_numerals a b (a.length + b.length) = some r ∧
      r = descending_numeral (a.count 'M' + b.count 'M') (a.count 'D' + b.count 'D')
        (a.count 'C' + b.count 'C') (a.count 'L' + b.count 'L') (a.count 'X' + b.count 'X')
        (a.count 'V' + b.count 'V') (a.count 'I' + b.count 'I') ∧
      no_digraph r = true := by
  have hs : over_symbols (a ++ b) := by
    intro c hc
    rcases List.mem_append.mp hc with h | h
    · exact hsa c h
    · exact hsb c h
  have e : merged (a ++ b) = descending_numeral (a.count 'M' + b.count 'M')
      (a.count 'D' + b.count 'D') (a.count 'C' + b.count 'C') (a.count 'L' + b.count 'L')
      (a.count 'X' + b.count 'X') (a.count 'V' + b.count 'V') (a.count 'I' + b.count 'I') := by
    rw [merged_eq_counts _ hs]
    simp only [List.count_append]
  refine ⟨merged (a ++ b), ?_, e, ?_⟩
  · rw [add_additive_eq a b _ ha hb, if_pos (Nat.le_refl _)]
  · rw [e]
    exact no_digraph_descending _ _ _ _ _ _ _

/-- C15 at XVI and CII. -/
theorem add_additive_roman_numerals_descending_witness :
    ∃ r, add_additive_roman_numerals "XVI".toList "CII".toList
        ("XVI".toList.length + "CII".toList.length) = some r ∧
      r = descending_numeral ("XVI".toList.count 'M' + "CII".toList.count 'M')
        ("XVI".toList.count 'D' + "CII".toList.count 'D')
        ("XVI".toList.count 'C' + "CII".toList.count 'C')
        ("XVI".toList.count 'L' + "CII".toList.count 'L')
        ("XVI".toList.count 'X' + "CII".toList.count 'X')
        ("XVI".toList.count 'V' + "CII".toList.count 'V')
        ("XVI".toList.count 'I' + "CII".toList.count 'I') ∧
      no_digraph r = true :=
  add_additive_roman_numerals_descending "XVI".toList "CII".toList (by decide) (by decide)
    (by decide) (by decide)

/-! ## `get_key` outside the table -/

/-- On the seven symbols `get_key` returns the index in `Roman_Numeral_Char`. -/
theorem get_key_symbols :
    get_key 'I' = RN_I ∧ get_key 'V' = RN_V ∧ get_key 'X' = RN_X ∧ get_key 'L' = RN_L ∧
      get_key 'C' = RN_C ∧ get_key 'D' = RN_D ∧ get_key 'M' = RN_M := by
  decide

/-- On every character outside the table `get_key` returns `RN_M`. -/
theorem get_key_of_not_mem (c : Char) (h : c ∉ Roman_Numeral_Char) : get_key c = RN_M := by
  rw [get_key_eq]
  simp only [Roman_Numeral_Char, List.mem_cons, List.mem_singleton, List.not_mem_nil, or_false,
    not_or] at h
  obtain ⟨h0, h1, h2, h3, h4, h5, _⟩ := h
  simp [h0, h1, h2, h3, h4, h5, RN_M]

/-- C16 at the character A: `get_key` returns `RN_M`, the index of M, and not
`RN_LAST`; so the merger counts an A as an M. -/
theorem get_key_outside_table :
    get_key 'A' = RN_M ∧ get_key 'A' ≠ RN_LAST ∧
      add_additive_roman_numerals "A".toList "I".toList 2 = some "MI".toList := by
  decide

/-! ## The subtractive table -/

/-- C17: every entry i of the subtractive table is a pair of a lower and a
higher symbol, the face values of `Replacement_for_Subtractive[i]` sum to
value(high) - value(low), and the replacement contains no digraph. -/
theorem replacement_value_correct (i : Nat) (hi : i < SF_LAST) :
    Subtractive_Form.getD i [] = [form_low i, form_high i] ∧
      symbol_value (form_low i) < symbol_value (form_high i) ∧
      additive_value (Replacement_for_Subtractive.getD i []) =
        symbol_value (form_high i) - symbol_value (form_low i) ∧
      no_digraph (Replacement_for_Subtractive.getD i []) = true := by
  revert i
  decide

/-- C17 at entry 5, the digraph IM. -/
theorem replacement_value_correct_witness :
    Subtractive_Form.getD 5 [] = [form_low 5, form_high 5] ∧
      symbol_value (form_low 5) < symbol_value (form_high 5) ∧
      additive_value (Replacement_for_Subtractive.getD 5 []) =
        symbol_value (form_high 5) - symbol_value (form_low 5) ∧
      no_digraph (Replacement_for_Subtractive.getD 5 []) = true :=
  replacement_value_correct 5 (by decide)

/-- C18 as stated fails at the first entry: the expansion of IV is IIII, while
four copies of I followed by one V is IIIIV. -/
theorem replacement_IV_not_spec_expansion :
    Subtractive_Form.getD 0 [] = "IV".toList ∧
      Replacement_for_Subtractive.getD 0 [] = "IIII".toList ∧
      spec_expansion 'I' 'V' = "IIIIV".toList ∧
      Replacement_for_Subtractive.getD 0 [] ≠ spec_expansion 'I' 'V' := by
  decide

/-- C18, amended: the expansion of entry (low, high) is the additive numeral of
value(high) - value(low) with the fewest symbols and never contains `high`;
when `high` is the symbol next in rank after `low`, it is
value(high) / value(low) - 1 copies of `low`. -/
theorem replacement_is_additive_numeral (i : Nat) (hi : i < SF_LAST) :
    Replacement_for_Subtractive.getD i [] =
        additive_numeral (symbol_value (form_high i) - symbol_value (form_low i)) ∧
      ¬ form_high i ∈ Replacement_for_Subtractive.getD i [] ∧
      (rank (form_high i) = rank (form_low i) + 1 →
        Replacement_for_Subtractive.getD i [] =
          List.replicate (symbol_value (form_high i) / symbol_value (form_low i) - 1)
            (form_low i)) := by
  revert i
  decide

/-- C18, amended, at entry 11, the digraph XL. -/
theorem replacement_is_additive_numeral_witness :
    Replacement_for_Subtractive.getD 11 [] =
        additive_numeral (symbol_value (form_high 11) - symbol_value (form_low 11)) ∧
      ¬ form_high 11 ∈ Replacement_for_Subtractive.getD 11 [] ∧
      (rank (form_high 11) = rank (form_low 11) + 1 →
        Replacement_for_Subtractive.getD 11 [] =
          List.replicate (symbol_value (form_high 11) / symbol_value (form_low 11) - 1)
            (form_low 11)) :=
  replacement_is_additive_numeral 11 (by decide)

/-! ## The length of the result -/

theorem length_replace_substring_le (p r : List Char) (hr : r.length ≤ p.length)
    (s : List Char) : (replace_substring s p r).length ≤ s.length := by
  by_cases hp : p = []
  · simp [replace_substring, hp]
  · obtain ⟨n, hn⟩ : ∃ n, s.length = n := ⟨_, rfl⟩
    induction n using Nat.strong_induction_on generalizing s with
    | _ n ih =>
      rcases replace_substring_cases p r s hp with h | ⟨t, hs, h⟩ | ⟨c, rest, hs, h⟩
      · rw [h, replace_substring_nil]
      · have hlen : t.length < n := by
          rw [← hn, hs, List.length_append]
          have : 0 < p.length := List.length_pos.mpr hp
          omega
        have := ih t.length hlen t rfl
        rw [h, List.length_append]
        rw [hs, List.length_append]
        omega
      · have hlen : rest.length < n := by
          rw [← hn, hs, List.length_cons]
          omega
        have := ih rest.length hlen rest rfl
        rw [h, List.length_cons]
        rw [hs, List.length_cons]
        omega

theorem length_bundle_loop_le (rules : List (List Char × List Char))
    (h : ∀ rule ∈ rules, rule.2.length ≤ rule.1.length) (s : List Char) :
    (bundle_loop rules s).length ≤ s.length := by
  induction rules generalizing s with
  | nil => exact Nat.le_refl _
  | cons rule rules ih =>
    obtain ⟨p, r⟩ := rule
    rw [bundle_loop]
    exact Nat.le_trans (ih (fun rule hr => h rule (List.mem_cons_of_mem _ hr)) _)
      (length_replace_substring_le p r (h (p, r) (by simp)) s)

theorem length_bundle_roman_symbols_le (s : List Char) :
    (bundle_roman_symbols s).length ≤ s.length :=
  length_bundle_loop_le _ (by decide) s

theorem symbol_value_le (c : Char) : symbol_value c ≤ 1000 := by
  unfold symbol_value
  split_ifs <;> decide

theorem additive_value_le (s : List Char) : additive_value s ≤ s.length * 1000 := by
  induction s with
  | nil => simp [additive_value]
  | cons c rest ih =>
    have := symbol_value_le c
    simp only [additive_value, List.map_cons, List.sum_cons, List.length_cons] at ih ⊢
    omega

/-- C19: when `add_roman_numerals` returns a string for non-empty a, b over the
seven symbols, the string is no longer than the two normalized summands
together, which is at most `MAX_NUMERAL_LENGTH`, and the face values of its
symbols sum to at most `MAX_NUMERAL_LENGTH * 1000`. -/
theorem add_roman_numerals_length_le (a b : List Char) (ha : a ≠ []) (hb : b ≠ [])
    (_hsa : over_symbols a) (_hsb : over_symbols b) (r : List Char)
    (hr : add_roman_numerals a b = some r) :
    r.length ≤ (write_additively a).length + (write_additively b).length ∧
      (write_additively a).length + (write_additively b).length ≤ MAX_NUMERAL_LENGTH ∧
      additive_value r ≤ MAX_NUMERAL_LENGTH * 1000 := by
  have ha' := write_additively_ne_nil a ha
  have hb' := write_additively_ne_nil b hb
  have hcap : (write_additively a).length + (write_additively b).length ≤ MAX_NUMERAL_LENGTH := by
    by_contra h
    rw [add_roman_numerals_none a b (Nat.lt_of_not_le h)] at hr
    exact Option.noConfusion hr
  rw [add_roman_numerals_eq a b ha' hb' hcap] at hr
  have hr' := Option.some.inj hr
  have h1 : r.length ≤ (write_additively a).length + (write_additively b).length := by
    rw [← hr', replace_substring_and_realloc]
    refine Nat.le_trans (length_replace_substring_le _ _ (by decide) _) ?_
    refine Nat.le_trans (length_bundle_roman_symbols_le _) ?_
    rw [length_merged, List.length_append]
  refine ⟨h1, hcap, ?_⟩
  exact Nat.le_trans (additive_value_le r) (Nat.mul_le_mul_right 1000 (Nat.le_trans h1 hcap))

/-- C19 at MMXXIII and I. -/
theorem add_roman_numerals_length_le_witness :
    "MMXXIV".toList.length ≤
        (write_additively "MMXXIII".toList).length + (write_additively "I".toList).length ∧
      (write_additively "MMXXIII".toList).length + (write_additively "I".toList).length
        ≤ MAX_NUMERAL_LENGTH ∧
      additive_value "MMXXIV".toList ≤ MAX_NUMERAL_LENGTH * 1000 :=
  add_roman_numerals_length_le "MMXXIII".toList "I".toList (by decide) (by decide) (by decide)
    (by decide) "MMXXIV".toList (by decide)

end RomanCalculator
